import Mathlib

/-!
# Verification of the `los` streaming paired-delimiter extractor

This file gives a shallow embedding, in Lean 4, of the core of the `los`
repository (github.com/humbornjo/los): the pair automaton (`matcher` in
`los.go`), the KMP literal sub-matcher (`kmpPattern` in `los.go`), the
streaming NFA regex virtual machine (`Machine` in
`internal/legex/legex_machine.go`), and the machine pool plumbing
(`internal/legex/legex.go`, `regexPattern` in `los.go`).

Modelling conventions:
* Go byte slices and strings become `List Nat` (each element a byte value);
  Go `int` values that can go negative (capture slots, `accum`, the shift
  computation of `Machine.Match`) become `Int`, all others `Nat`.
* Go `for` loops that are not structurally recursive are written with an
  explicit fuel parameter.  The fuel chosen in each wrapper definition is a
  proven upper bound on the number of iterations the Go loop can take, and
  fuel-irrelevance lemmas (`lpsGo` / `kmpGo` / `runLoop`) show the value of
  the fuel does not matter once it is at least that bound.
* `bytes.Buffer.Next n` removes and returns `min n len` leading bytes; it is
  modelled by `List.take` / `List.drop` (which clamp the same way).
-/

/-- Bytes of a string literal, used to state concrete scenarios. -/
def strBytes (s : String) : List Nat :=
  s.data.map Char.toNat

/-! ## KMP literal sub-matcher (`kmpPattern`, `los.go` lines 389-443)

`computeLpsArray` is the closure inside `newKmpPattern`; its Go loop
`for i, j := 1, 0; i < n;` is written as `lpsGo` with fuel.  The measure
`2*i - j` grows by at least one per iteration and is bounded by `2*n`, so
`2*n + 1` fuel always suffices. -/

def lpsGo (p : List Nat) : Nat → List Nat → Nat → Nat → List Nat
  | 0, arr, _, _ => arr
  | fuel + 1, arr, i, j =>
    if i < p.length then
      if p.getD i 0 = p.getD j 0 then
        lpsGo p fuel (arr.set i (j + 1)) (i + 1) (j + 1)
      else if j ≠ 0 then
        lpsGo p fuel arr i (arr.getD (j - 1) 0)
      else
        lpsGo p fuel (arr.set i 0) (i + 1) j
    else arr

/-- The `computeLpsArray` closure of `newKmpPattern` (`los.go` 400-416):
longest-proper-prefix-suffix table of the pattern, starting from the
all-zero array with `i, j := 1, 0`. -/
def computeLpsArray (p : List Nat) : List Nat :=
  lpsGo p (2 * p.length + 1) (List.replicate p.length 0) 1 0

/-- `kmpPattern` (`los.go` 391-395). -/
structure kmpPattern where
  lps : List Nat
  length : Nat
  source : List Nat
deriving Repr, DecidableEq

/-- `newKmpPattern` (`los.go` 399-418). -/
def newKmpPattern (source : List Nat) : kmpPattern :=
  ⟨computeLpsArray source, source.length, source⟩

/-- The scan loop of `kmpPattern.Match` (`los.go` 426-439).  In Go the match
test advances `i, j` and then compares `j` with `m`; here the comparison is
written on `j + 1` before recursing, which is the same thing.  Fuel
exhaustion returns the same `(i - j, j, false)` as the loop exit; the
measure `2*i - j` shows `2*len(buffer) + 1` fuel always suffices. -/
def kmpGo (src lps buffer : List Nat) : Nat → Nat → Nat → Nat × Nat × Bool
  | 0, i, j => (i - j, j, false)
  | fuel + 1, i, j =>
    if i < buffer.length then
      if buffer.getD i 0 = src.getD j 0 then
        if j + 1 = src.length then (i + 1 - (j + 1), j + 1, true)
        else kmpGo src lps buffer fuel (i + 1) (j + 1)
      else if j ≠ 0 then
        kmpGo src lps buffer fuel i (lps.getD (j - 1) 0)
      else
        kmpGo src lps buffer fuel (i + 1) j
    else (i - j, j, false)

/-- `kmpPattern.Match` (`los.go` 420-441). -/
def kmpPattern.Match (pat : kmpPattern) (index offset : Nat) (buffer : List Nat) :
    Nat × Nat × Bool :=
  if offset = pat.length then (index, offset, true)
  else kmpGo pat.source pat.lps buffer (2 * buffer.length + 1) (index + offset) offset

example : computeLpsArray (strBytes "aabaaf") = [0, 1, 0, 1, 2, 0] := by decide
example : computeLpsArray (strBytes "abcabd") = [0, 0, 0, 1, 2, 0] := by decide

example :
    (newKmpPattern (strBytes "abc")).Match 0 0 (strBytes "xxabc") = (2, 3, true) := by
  decide
example :
    (newKmpPattern (strBytes "abc")).Match 0 0 (strBytes "xxab") = (2, 2, false) := by
  decide
example :
    (newKmpPattern (strBytes "abc")).Match 0 2 (strBytes "abc") = (0, 3, true) := by
  decide

/-! ## The pair automaton (`matcher`, `los.go` 326-376)

The matcher is generic in the sub-matcher pair: `σ` is the (mutable) state
of the two sub-matchers and `step slot ps index offset buffer` is
`m.patterns[slot].Match(index, offset, buffer)` together with its state
update.  The KMP sub-matcher is the stateless instance, the regex VM the
stateful one.  `bytes.Buffer` operations `Bytes`/`Next`/`WriteString` are
`id`/`take`+`drop`/`++`. -/

/-- A sub-matcher step: `patterns[slot].Match(index, offset, buffer)`
returning the updated sub-matcher state and `(index', offset', ok)`. -/
def PatStep (σ : Type) : Type :=
  Nat → σ → Nat → Nat → List Nat → σ × Nat × Nat × Bool

/-- Persistent matcher state (`matcher` struct, `los.go` 326-332). -/
structure MState (σ : Type) where
  state : Nat
  index : Nat
  offset : Nat
  buffer : List Nat
  pats : σ
deriving Repr, DecidableEq

/-- An emitted `textResult` (`los.go` 299-302). -/
structure Segment where
  state : Nat
  raw : List Nat
deriving Repr, DecidableEq

/-- The `encore` loop of `matcher.Match` (`los.go` 343-365) with every
yield accepted (the consumer pulls the whole lazy sequence).  One fuel unit
per `goto encore`; each pass with `ok` consumes `offset' ≥ 1` bytes for any
well-formed sub-matcher, so `buffer.length + 1` fuel suffices. -/
def runLoop (step : PatStep σ) :
    Nat → Nat → σ → Nat → Nat → List Nat → List Segment × MState σ
  | 0, st, ps, index, offset, buffer => ([], ⟨st, index, offset, buffer, ps⟩)
  | fuel + 1, st, ps, index, offset, buffer =>
    let r := step (st >>> 1) ps index offset buffer
    let i := r.2.1
    let o := r.2.2.1
    if r.2.2.2 then
      let seg1 : List Segment := if 0 < i then [⟨st, buffer.take i⟩] else []
      let buf1 := buffer.drop i
      let res := runLoop step fuel (st ^^^ 2) r.1 0 0 (buf1.drop o)
      (seg1 ++ ⟨st + 1, buf1.take o⟩ :: res.1, res.2)
    else
      if i = 0 then ([], ⟨st, 0, o, buffer, r.1⟩)
      else ([⟨st, buffer.take i⟩], ⟨st, 0, o, buffer.drop i, r.1⟩)

/-- `matcher.Match` (`los.go` 340-366): append the chunk, run the loop,
return the emitted segments and the persisted state. -/
def matchM (step : PatStep σ) (s : MState σ) (chunk : List Nat) :
    List Segment × MState σ :=
  runLoop step ((s.buffer ++ chunk).length + 1) s.state s.pats s.index s.offset
    (s.buffer ++ chunk)

/-- `matcher.Drain` (`los.go` 334-338): buffer content out, state reset to
`(STATE_NONE, 0, 0)`, buffer cleared. -/
def drainM (s : MState σ) : List Nat × MState σ :=
  (s.buffer, ⟨0, 0, 0, [], s.pats⟩)

/-- The matcher as produced by `NewMatcher` (`los.go` 240-254). -/
def initM (ps : σ) : MState σ := ⟨0, 0, 0, [], ps⟩

/-- Feed a sequence of chunks, fully consuming each `Results` sequence. -/
def feedAll (step : PatStep σ) (s : MState σ) :
    List (List Nat) → List Segment × MState σ
  | [] => ([], s)
  | c :: cs =>
    let r := matchM step s c
    let rest := feedAll step r.2 cs
    (r.1 ++ rest.1, rest.2)

/-- The raw bytes of a segment list, in emission order. -/
def segsRaw (segs : List Segment) : List Nat :=
  (segs.map Segment.raw).flatten

/-- The labeled-byte stream of a segment list: one `(state, byte)` pair per
emitted byte, forgetting segment boundaries. -/
def labeledOf (segs : List Segment) : List (Nat × Nat) :=
  (segs.map fun sg => sg.raw.map fun b => (sg.state, b)).flatten

lemma segsRaw_append (a b : List Segment) :
    segsRaw (a ++ b) = segsRaw a ++ segsRaw b := by
  simp [segsRaw]

lemma runLoop_conservation (step : PatStep σ) :
    ∀ fuel st ps index offset buffer,
      segsRaw (runLoop step fuel st ps index offset buffer).1 ++
        (runLoop step fuel st ps index offset buffer).2.buffer = buffer := by
  intro fuel
  induction fuel with
  | zero => intro st ps index offset buffer; simp [runLoop, segsRaw]
  | succ fuel ih =>
    intro st ps index offset buffer
    simp only [runLoop]
    by_cases hok : (step (st >>> 1) ps index offset buffer).2.2.2
    · simp only [hok, if_true]
      have h2 := ih (st ^^^ 2) (step (st >>> 1) ps index offset buffer).1 0 0
        ((buffer.drop (step (st >>> 1) ps index offset buffer).2.1).drop
          (step (st >>> 1) ps index offset buffer).2.2.1)
      by_cases hi : 0 < (step (st >>> 1) ps index offset buffer).2.1
      · simp only [hi, if_true, segsRaw, List.map_append, List.flatten_append,
          List.map_cons, List.flatten_cons, List.map_nil, List.flatten_nil,
          List.append_nil, List.append_assoc]
        simp only [segsRaw] at h2
        rw [h2, List.take_append_drop, List.take_append_drop]
      · have hz : (step (st >>> 1) ps index offset buffer).2.1 = 0 :=
          Nat.eq_zero_of_not_pos hi
        simp only [hi, if_false, List.nil_append, segsRaw, List.map_cons,
          List.flatten_cons]
        simp only [segsRaw] at h2
        rw [List.append_assoc, h2, List.take_append_drop, hz, List.drop_zero]
    · simp only [hok, if_false]
      by_cases hi : (step (st >>> 1) ps index offset buffer).2.1 = 0
      · simp [hi, segsRaw]
      · simp [hi, segsRaw, List.take_append_drop]

lemma matchM_conservation (step : PatStep σ) (s : MState σ) (c : List Nat) :
    segsRaw (matchM step s c).1 ++ (matchM step s c).2.buffer = s.buffer ++ c :=
  runLoop_conservation step _ _ _ _ _ _

lemma feedAll_conservation (step : PatStep σ) :
    ∀ (chunks : List (List Nat)) (s : MState σ),
      segsRaw (feedAll step s chunks).1 ++ (feedAll step s chunks).2.buffer =
        s.buffer ++ chunks.flatten := by
  intro chunks
  induction chunks with
  | nil => intro s; simp [feedAll, segsRaw]
  | cons c cs ih =>
    intro s
    simp only [feedAll, List.flatten_cons, segsRaw_append]
    rw [List.append_assoc, ih (matchM step s c).2, ← List.append_assoc,
      matchM_conservation, List.append_assoc]

/-- C1.  For every sub-matcher pair (of any state type, so in particular
for the KMP and regex VM instances) and every finite sequence of input
chunks, fully consuming every `Match(ci)` sequence and then calling
`Drain()` reproduces the concatenated input byte-for-byte: the raw bytes of
all emitted segments followed by the drained remainder equal
`c₁ ++ … ++ cₙ`. -/
theorem claim_C1_conservation (σ : Type) (step : PatStep σ) (ps : σ)
    (chunks : List (List Nat)) :
    segsRaw (feedAll step (initM ps) chunks).1 ++
      (drainM (feedAll step (initM ps) chunks).2).1 = chunks.flatten := by
  have h := feedAll_conservation step chunks (initM ps)
  simpa [initM, drainM] using h

/-! ### List helpers used throughout -/

lemma getD_set_self {arr : List Nat} {i v : Nat} (h : i < arr.length) :
    (arr.set i v).getD i 0 = v := by
  rw [List.getD_eq_getElem?_getD, List.getElem?_set_self', List.getElem?_eq_getElem h]
  rfl

lemma getD_set_ne {arr : List Nat} {i k v : Nat} (h : i ≠ k) :
    (arr.set i v).getD k 0 = arr.getD k 0 := by
  rw [List.getD_eq_getElem?_getD, List.getElem?_set_ne h, ← List.getD_eq_getElem?_getD]

lemma getD_replicate_zero (n k : Nat) : (List.replicate n (0 : Nat)).getD k 0 = 0 := by
  rw [List.getD_eq_getElem?_getD, List.getElem?_replicate]
  by_cases h : k < n <;> simp [h]

lemma take_succ_getD {l : List Nat} {n : Nat} (h : n < l.length) :
    l.take (n + 1) = l.take n ++ [l.getD n 0] := by
  rw [List.take_succ, List.getElem?_eq_getElem h, List.getD_eq_getElem?_getD,
    List.getElem?_eq_getElem h]
  rfl

lemma suffix_snoc {a b : List Nat} {x : Nat} (h : a <:+ b) : a ++ [x] <:+ b ++ [x] := by
  obtain ⟨t, ht⟩ := h
  exact ⟨t, by rw [← List.append_assoc, ht]⟩

lemma IsSuffix.eq_drop {a b : List Nat} (h : a <:+ b) :
    a = b.drop (b.length - a.length) := by
  obtain ⟨t, ht⟩ := h
  subst ht
  rw [List.length_append, Nat.add_sub_cancel, List.drop_left]

lemma getD_append_left {a b : List Nat} {k : Nat} (h : k < a.length) :
    (a ++ b).getD k 0 = a.getD k 0 := by
  rw [List.getD_eq_getElem?_getD, List.getElem?_append_left h,
    ← List.getD_eq_getElem?_getD]

lemma getD_drop (a : List Nat) (d k : Nat) :
    (a.drop d).getD k 0 = a.getD (d + k) 0 := by
  rw [List.getD_eq_getElem?_getD, List.getElem?_drop, ← List.getD_eq_getElem?_getD]

/-! ### The border property of `computeLpsArray`

`BorderTable p arr` says every table entry names a (not necessarily
longest) border: `p.take (arr[k])` is a suffix of `p.take (k+1)` and
`arr[k] ≤ k`.  Entries beyond the array read as the default `0`, for which
both parts are trivial, so the property is stated for all `k`. -/

def BorderTable (p arr : List Nat) : Prop :=
  ∀ k, arr.getD k 0 ≤ k ∧ p.take (arr.getD k 0) <:+ p.take (k + 1)

lemma lpsGo_borderTable (p : List Nat) :
    ∀ fuel arr i j, arr.length = p.length → BorderTable p arr →
      j < i → p.take j <:+ p.take i →
      BorderTable p (lpsGo p fuel arr i j) := by
  intro fuel
  induction fuel with
  | zero => intro arr i j _ hB _ _; exact hB
  | succ fuel ih =>
    intro arr i j hlen hB hj hs
    simp only [lpsGo]
    by_cases hi : i < p.length
    · simp only [hi, if_true]
      by_cases heq : p.getD i 0 = p.getD j 0
      · simp only [heq, if_true]
        have hjp : j < p.length := lt_trans hj hi
        have hsucc : p.take (j + 1) <:+ p.take (i + 1) := by
          rw [take_succ_getD hi, take_succ_getD hjp, heq]
          exact suffix_snoc hs
        have hB2 : BorderTable p (arr.set i (j + 1)) := by
          intro k
          by_cases hk : i = k
          · subst hk
            rw [getD_set_self (hlen ▸ hi)]
            exact ⟨hj, hsucc⟩
          · rw [getD_set_ne hk]; exact hB k
        exact ih (arr.set i (j + 1)) (i + 1) (j + 1)
          (by rw [List.length_set]; exact hlen) hB2 (by omega) hsucc
      · simp only [heq, if_false]
        by_cases hz : j ≠ 0
        · rw [if_pos hz]
          have h1 := (hB (j - 1)).1
          have h2 := (hB (j - 1)).2
          have hj1 : j - 1 + 1 = j := by omega
          rw [hj1] at h2
          exact ih arr i (arr.getD (j - 1) 0) hlen hB (by omega) (h2.trans hs)
        · rw [if_neg hz]
          have hB2 : BorderTable p (arr.set i 0) := by
            intro k
            by_cases hk : i = k
            · subst hk
              rw [getD_set_self (hlen ▸ hi)]
              exact ⟨Nat.zero_le _, List.nil_suffix⟩
            · rw [getD_set_ne hk]; exact hB k
          have hj0 : j = 0 := by omega
          subst hj0
          exact ih (arr.set i 0) (i + 1) 0 (by rw [List.length_set]; exact hlen) hB2
            (by omega) List.nil_suffix
    · simp only [hi, if_false]; exact hB

lemma computeLpsArray_borderTable (p : List Nat) :
    BorderTable p (computeLpsArray p) := by
  apply lpsGo_borderTable
  · simp
  · intro k
    rw [getD_replicate_zero]
    exact ⟨Nat.zero_le _, List.nil_suffix⟩
  · omega
  · exact List.nil_suffix

lemma computeLpsArray_le (p : List Nat) (k : Nat) :
    (computeLpsArray p).getD k 0 ≤ k :=
  (computeLpsArray_borderTable p k).1

/-! ### Fuel irrelevance and exit properties of the KMP scan loop -/

lemma kmpGo_unfold (src lps buffer : List Nat) (f i j : Nat) :
    kmpGo src lps buffer (f + 1) i j =
      if i < buffer.length then
        if buffer.getD i 0 = src.getD j 0 then
          if j + 1 = src.length then (i + 1 - (j + 1), j + 1, true)
          else kmpGo src lps buffer f (i + 1) (j + 1)
        else if j ≠ 0 then kmpGo src lps buffer f i (lps.getD (j - 1) 0)
        else kmpGo src lps buffer f (i + 1) j
      else (i - j, j, false) := rfl

lemma kmpGo_succ_eq (src lps buffer : List Nat) (ht : ∀ k, lps.getD k 0 ≤ k) :
    ∀ f i j, j ≤ i → 2 * buffer.length + j ≤ f + 2 * i →
      kmpGo src lps buffer (f + 1) i j = kmpGo src lps buffer f i j := by
  intro f
  induction f with
  | zero =>
    intro i j hj hf
    have hni : ¬ i < buffer.length := by omega
    rw [kmpGo_unfold, if_neg hni]
    rfl
  | succ f ih =>
    intro i j hj hf
    conv_rhs => rw [kmpGo_unfold]
    conv_lhs => rw [kmpGo_unfold]
    by_cases hi : i < buffer.length
    · rw [if_pos hi, if_pos hi]
      by_cases heq : buffer.getD i 0 = src.getD j 0
      · rw [if_pos heq, if_pos heq]
        by_cases hm : j + 1 = src.length
        · rw [if_pos hm, if_pos hm]
        · rw [if_neg hm, if_neg hm]
          exact ih (i + 1) (j + 1) (by omega) (by omega)
      · rw [if_neg heq, if_neg heq]
        by_cases hz : j ≠ 0
        · rw [if_pos hz, if_pos hz]
          have h1 := ht (j - 1)
          exact ih i (lps.getD (j - 1) 0) (by omega) (by omega)
        · rw [if_neg hz, if_neg hz]
          exact ih (i + 1) j (by omega) (by omega)
    · rw [if_neg hi, if_neg hi]

lemma kmpGo_fuel_add (src lps buffer : List Nat) (ht : ∀ k, lps.getD k 0 ≤ k)
    (f i j : Nat) (hj : j ≤ i) (hf : 2 * buffer.length + j ≤ f + 2 * i) :
    ∀ d, kmpGo src lps buffer (f + d) i j = kmpGo src lps buffer f i j := by
  intro d
  induction d with
  | zero => rfl
  | succ d ih =>
    rw [show f + (d + 1) = (f + d) + 1 from rfl,
      kmpGo_succ_eq src lps buffer ht (f + d) i j hj (by omega), ih]

lemma kmpGo_fuel_eq (src lps buffer : List Nat) (ht : ∀ k, lps.getD k 0 ≤ k)
    (f g i j : Nat) (hj : j ≤ i) (hf : 2 * buffer.length + j ≤ f + 2 * i)
    (hg : 2 * buffer.length + j ≤ g + 2 * i) :
    kmpGo src lps buffer f i j = kmpGo src lps buffer g i j := by
  rcases Nat.le_total f g with h | h
  · rw [show g = f + (g - f) by omega, kmpGo_fuel_add src lps buffer ht f i j hj hf]
  · rw [show f = g + (f - g) by omega, kmpGo_fuel_add src lps buffer ht g i j hj hg]

lemma kmpGo_fail_at_end (src lps buffer : List Nat) (ht : ∀ k, lps.getD k 0 ≤ k) :
    ∀ f i j i' o', j ≤ i → i ≤ buffer.length →
      2 * buffer.length + j ≤ f + 2 * i →
      kmpGo src lps buffer f i j = (i', o', false) → i' + o' = buffer.length := by
  intro f
  induction f with
  | zero =>
    intro i j i' o' hj hi hf heq
    simp only [kmpGo, Prod.mk.injEq] at heq
    omega
  | succ f ih =>
    intro i j i' o' hj hi hf heq
    rw [kmpGo_unfold] at heq
    by_cases hi2 : i < buffer.length
    · rw [if_pos hi2] at heq
      by_cases heqb : buffer.getD i 0 = src.getD j 0
      · rw [if_pos heqb] at heq
        by_cases hm : j + 1 = src.length
        · rw [if_pos hm] at heq
          simp only [Prod.mk.injEq] at heq
          exact absurd heq.2.2 (by simp)
        · rw [if_neg hm] at heq
          exact ih (i + 1) (j + 1) i' o' (by omega) (by omega) (by omega) heq
      · rw [if_neg heqb] at heq
        by_cases hz : j ≠ 0
        · rw [if_pos hz] at heq
          have h1 := ht (j - 1)
          exact ih i (lps.getD (j - 1) 0) i' o' (by omega) hi (by omega) heq
        · rw [if_neg hz] at heq
          exact ih (i + 1) j i' o' (by omega) (by omega) (by omega) heq
    · rw [if_neg hi2] at heq
      simp only [Prod.mk.injEq] at heq
      omega

/-- The central KMP loop invariant: the `j` bytes before the scan position
match the first `j` pattern bytes, so every exit `(i', o', _)` satisfies
`buffer[i' .. i'+o') = src[0 .. o')` together with the obvious bounds. -/
lemma kmpGo_invariant (src lps buffer : List Nat)
    (ht : ∀ k, lps.getD k 0 ≤ k)
    (hb : ∀ k, src.take (lps.getD k 0) <:+ src.take (k + 1)) :
    ∀ f i j i' o' ok, j ≤ i → i ≤ buffer.length → j < src.length →
      (buffer.take i).drop (i - j) = src.take j →
      kmpGo src lps buffer f i j = (i', o', ok) →
      i' + o' ≤ buffer.length ∧ o' ≤ src.length ∧
        (buffer.take (i' + o')).drop i' = src.take o' ∧
        (ok = true → o' = src.length) ∧ (ok = false → o' < src.length) := by
  intro f
  induction f with
  | zero =>
    intro i j i' o' ok hj hi hjs hpre heq
    simp only [kmpGo, Prod.mk.injEq] at heq
    obtain ⟨h1, h2, h3⟩ := heq
    subst h1; subst h2; subst h3
    have e1 : i - j + j = i := by omega
    rw [e1]
    exact ⟨by omega, by omega, hpre, by simp, fun _ => hjs⟩
  | succ f ih =>
    intro i j i' o' ok hj hi hjs hpre heq
    rw [kmpGo_unfold] at heq
    by_cases hi2 : i < buffer.length
    · rw [if_pos hi2] at heq
      have hlt : (buffer.take i).length = i := by
        rw [List.length_take]; omega
      by_cases heqb : buffer.getD i 0 = src.getD j 0
      · rw [if_pos heqb] at heq
        have hstep : (buffer.take (i + 1)).drop (i - j) = src.take (j + 1) := by
          rw [take_succ_getD hi2, List.drop_append_of_le_length (by omega),
            hpre, heqb, ← take_succ_getD hjs]
        by_cases hm : j + 1 = src.length
        · rw [if_pos hm] at heq
          simp only [Prod.mk.injEq] at heq
          obtain ⟨h1, h2, h3⟩ := heq
          subst h1; subst h2; subst h3
          have e1 : i + 1 - (j + 1) + (j + 1) = i + 1 := by omega
          have e2 : i + 1 - (j + 1) = i - j := by omega
          rw [e1, e2]
          exact ⟨by omega, by omega, hstep, fun _ => hm, by simp⟩
        · rw [if_neg hm] at heq
          have hstep2 : (buffer.take (i + 1)).drop (i + 1 - (j + 1)) = src.take (j + 1) := by
            rw [show i + 1 - (j + 1) = i - j by omega]; exact hstep
          exact ih (i + 1) (j + 1) i' o' ok (by omega) (by omega) (by omega) hstep2 heq
      · rw [if_neg heqb] at heq
        by_cases hz : j ≠ 0
        · rw [if_pos hz] at heq
          have hj1 := ht (j - 1)
          have hs1 := hb (j - 1)
          rw [show j - 1 + 1 = j by omega] at hs1
          have hd := IsSuffix.eq_drop hs1
          rw [List.length_take, List.length_take,
            show j ⊓ src.length = j by omega,
            show lps.getD (j - 1) 0 ⊓ src.length = lps.getD (j - 1) 0 by omega] at hd
          have hpre2 : (buffer.take i).drop (i - lps.getD (j - 1) 0) =
              src.take (lps.getD (j - 1) 0) := by
            rw [show i - lps.getD (j - 1) 0 = (i - j) + (j - lps.getD (j - 1) 0) by omega,
              ← List.drop_drop, hpre, ← hd]
          exact ih i (lps.getD (j - 1) 0) i' o' ok (by omega) hi (by omega) hpre2 heq
        · rw [if_neg hz] at heq
          have hj0 : j = 0 := by omega
          subst hj0
          have hpre3 : (buffer.take (i + 1)).drop (i + 1 - 0) = src.take 0 := by
            rw [Nat.sub_zero, List.drop_of_length_le (by rw [List.length_take]; omega)]
            rfl
          exact ih (i + 1) 0 i' o' ok (by omega) (by omega) hjs hpre3 heq
    · rw [if_neg hi2] at heq
      simp only [Prod.mk.injEq] at heq
      obtain ⟨h1, h2, h3⟩ := heq
      subst h1; subst h2; subst h3
      have e1 : i - j + j = i := by omega
      rw [e1]
      exact ⟨by omega, by omega, hpre, by simp, fun _ => hjs⟩

/-- A successful exit of the scan loop: the reported window fits in the
buffer, the offset is the whole pattern, and it is positive. -/
lemma kmpGo_ok_exit (src lps buffer : List Nat) (ht : ∀ k, lps.getD k 0 ≤ k) :
    ∀ f i j i' o', j ≤ i → i ≤ buffer.length →
      kmpGo src lps buffer f i j = (i', o', true) →
      i' + o' ≤ buffer.length ∧ o' = src.length ∧ 1 ≤ o' := by
  intro f
  induction f with
  | zero =>
    intro i j i' o' hj hi heq
    simp only [kmpGo, Prod.mk.injEq] at heq
    exact absurd heq.2.2 (by simp)
  | succ f ih =>
    intro i j i' o' hj hi heq
    rw [kmpGo_unfold] at heq
    by_cases hi2 : i < buffer.length
    · rw [if_pos hi2] at heq
      by_cases heqb : buffer.getD i 0 = src.getD j 0
      · rw [if_pos heqb] at heq
        by_cases hm : j + 1 = src.length
        · rw [if_pos hm] at heq
          simp only [Prod.mk.injEq] at heq
          obtain ⟨h1, h2, _⟩ := heq
          subst h1; subst h2
          exact ⟨by omega, hm, by omega⟩
        · rw [if_neg hm] at heq
          exact ih (i + 1) (j + 1) i' o' (by omega) (by omega) heq
      · rw [if_neg heqb] at heq
        by_cases hz : j ≠ 0
        · rw [if_pos hz] at heq
          have h1 := ht (j - 1)
          exact ih i (lps.getD (j - 1) 0) i' o' (by omega) hi heq
        · rw [if_neg hz] at heq
          exact ih (i + 1) j i' o' (by omega) (by omega) heq
    · rw [if_neg hi2] at heq
      simp only [Prod.mk.injEq] at heq
      exact absurd heq.2.2 (by simp)

/-- Dropping `d` released bytes from the front of the window shifts the
scan by `d` as long as the live prefix start `i - j` stays at or after
`d`. -/
lemma kmpGo_shift (src lps c : List Nat) (ht : ∀ k, lps.getD k 0 ≤ k)
    (d : Nat) (hd : d ≤ c.length) :
    ∀ f i j, d + j ≤ i →
      kmpGo src lps c f i j =
        (d + (kmpGo src lps (c.drop d) f (i - d) j).1,
          (kmpGo src lps (c.drop d) f (i - d) j).2) := by
  intro f
  induction f with
  | zero =>
    intro i j hdj
    simp only [kmpGo]
    refine Prod.ext ?_ rfl
    simp only
    omega
  | succ f ih =>
    intro i j hdj
    rw [kmpGo_unfold, kmpGo_unfold]
    have hlen : (c.drop d).length = c.length - d := by simp
    have hiff : i < c.length ↔ i - d < (c.drop d).length := by
      rw [hlen]; omega
    by_cases hi : i < c.length
    · rw [if_pos hi, if_pos (hiff.mp hi)]
      have hread : (c.drop d).getD (i - d) 0 = c.getD i 0 := by
        rw [getD_drop, show d + (i - d) = i by omega]
      rw [hread]
      by_cases heqb : c.getD i 0 = src.getD j 0
      · rw [if_pos heqb, if_pos heqb]
        by_cases hm : j + 1 = src.length
        · rw [if_pos hm, if_pos hm]
          refine Prod.ext ?_ rfl
          simp only
          omega
        · rw [if_neg hm, if_neg hm]
          rw [show i - d + 1 = i + 1 - d by omega]
          exact ih (i + 1) (j + 1) (by omega)
      · rw [if_neg heqb, if_neg heqb]
        by_cases hz : j ≠ 0
        · rw [if_pos hz, if_pos hz]
          have h1 := ht (j - 1)
          exact ih i (lps.getD (j - 1) 0) (by omega)
        · rw [if_neg hz, if_neg hz]
          rw [show i - d + 1 = i + 1 - d by omega]
          exact ih (i + 1) j (by omega)
    · rw [if_neg hi, if_neg (fun hcon => hi (hiff.mpr hcon))]
      refine Prod.ext ?_ rfl
      simp only
      omega

/-- Replay: a failed scan of `b` that stopped at the end of `b` takes the
same branch decisions on `b ++ e` and leaves the extended scan parked at
`(b.length, o')` with enough fuel left. -/
lemma kmpGo_replay (src lps b e : List Nat) (ht : ∀ k, lps.getD k 0 ≤ k) :
    ∀ f i j i' o', j ≤ i → i ≤ b.length →
      2 * (b.length + e.length) + j ≤ f + 2 * i →
      kmpGo src lps b f i j = (i', o', false) →
      ∃ g, 2 * (b.length + e.length) + o' ≤ g + 2 * b.length ∧
        kmpGo src lps (b ++ e) f i j = kmpGo src lps (b ++ e) g b.length o' := by
  intro f
  induction f with
  | zero =>
    intro i j i' o' hj hi hf heq
    simp only [kmpGo, Prod.mk.injEq] at heq
    obtain ⟨h1, h2, _⟩ := heq
    refine ⟨0, by omega, ?_⟩
    have hie : i = b.length := by omega
    have hje : j = o' := by omega
    rw [hie, hje]
  | succ f ih =>
    intro i j i' o' hj hi hf heq
    rw [kmpGo_unfold] at heq
    by_cases hi2 : i < b.length
    · rw [if_pos hi2] at heq
      have hi3 : i < (b ++ e).length := by simp; omega
      have hread : (b ++ e).getD i 0 = b.getD i 0 := getD_append_left hi2
      rw [kmpGo_unfold, if_pos hi3, hread]
      by_cases heqb : b.getD i 0 = src.getD j 0
      · rw [if_pos heqb] at heq
        rw [if_pos heqb]
        by_cases hm : j + 1 = src.length
        · rw [if_pos hm] at heq
          simp only [Prod.mk.injEq] at heq
          exact absurd heq.2.2 (by simp)
        · rw [if_neg hm] at heq
          rw [if_neg hm]
          exact ih (i + 1) (j + 1) i' o' (by omega) (by omega) (by omega) heq
      · rw [if_neg heqb] at heq
        rw [if_neg heqb]
        by_cases hz : j ≠ 0
        · rw [if_pos hz] at heq
          rw [if_pos hz]
          have h1 := ht (j - 1)
          exact ih i (lps.getD (j - 1) 0) i' o' (by omega) hi (by omega) heq
        · rw [if_neg hz] at heq
          rw [if_neg hz]
          exact ih (i + 1) j i' o' (by omega) (by omega) (by omega) heq
    · rw [if_neg hi2] at heq
      simp only [Prod.mk.injEq] at heq
      obtain ⟨h1, h2, _⟩ := heq
      refine ⟨f + 1, by omega, ?_⟩
      have hie : i = b.length := by omega
      have hje : j = o' := by omega
      rw [hie, hje]

/-- A successful scan of `b` succeeds identically on `b ++ e`. -/
lemma kmpGo_ext_ok (src lps b e : List Nat) :
    ∀ f i j i' o', i ≤ b.length →
      kmpGo src lps b f i j = (i', o', true) →
      kmpGo src lps (b ++ e) f i j = (i', o', true) := by
  intro f
  induction f with
  | zero =>
    intro i j i' o' hi heq
    simp only [kmpGo, Prod.mk.injEq] at heq
    exact absurd heq.2.2 (by simp)
  | succ f ih =>
    intro i j i' o' hi heq
    rw [kmpGo_unfold] at heq
    by_cases hi2 : i < b.length
    · rw [if_pos hi2] at heq
      have hi3 : i < (b ++ e).length := by simp; omega
      have hread : (b ++ e).getD i 0 = b.getD i 0 := getD_append_left hi2
      rw [kmpGo_unfold, if_pos hi3, hread]
      by_cases heqb : b.getD i 0 = src.getD j 0
      · rw [if_pos heqb] at heq
        rw [if_pos heqb]
        by_cases hm : j + 1 = src.length
        · rw [if_pos hm] at heq
          rw [if_pos hm]
          exact heq
        · rw [if_neg hm] at heq
          rw [if_neg hm]
          exact ih (i + 1) (j + 1) i' o' (by omega) heq
      · rw [if_neg heqb] at heq
        rw [if_neg heqb]
        by_cases hz : j ≠ 0
        · rw [if_pos hz] at heq
          rw [if_pos hz]
          exact ih i (lps.getD (j - 1) 0) i' o' hi heq
        · rw [if_neg hz] at heq
          rw [if_neg hz]
          exact ih (i + 1) j i' o' (by omega) heq
    · rw [if_neg hi2] at heq
      simp only [Prod.mk.injEq] at heq
      exact absurd heq.2.2 (by simp)

lemma kmpGo_fail_bounds (src lps buffer : List Nat) (ht : ∀ k, lps.getD k 0 ≤ k) :
    ∀ f i j i' o', j ≤ i → i ≤ buffer.length → j < src.length →
      kmpGo src lps buffer f i j = (i', o', false) →
      o' < src.length ∧ i' + o' ≤ buffer.length := by
  intro f
  induction f with
  | zero =>
    intro i j i' o' hj hi hjs heq
    simp only [kmpGo, Prod.mk.injEq] at heq
    omega
  | succ f ih =>
    intro i j i' o' hj hi hjs heq
    rw [kmpGo_unfold] at heq
    by_cases hi2 : i < buffer.length
    · rw [if_pos hi2] at heq
      by_cases heqb : buffer.getD i 0 = src.getD j 0
      · rw [if_pos heqb] at heq
        by_cases hm : j + 1 = src.length
        · rw [if_pos hm] at heq
          simp only [Prod.mk.injEq] at heq
          exact absurd heq.2.2 (by simp)
        · rw [if_neg hm] at heq
          exact ih (i + 1) (j + 1) i' o' (by omega) (by omega) (by omega) heq
      · rw [if_neg heqb] at heq
        by_cases hz : j ≠ 0
        · rw [if_pos hz] at heq
          have h1 := ht (j - 1)
          exact ih i (lps.getD (j - 1) 0) i' o' (by omega) hi (by omega) heq
        · rw [if_neg hz] at heq
          exact ih (i + 1) j i' o' (by omega) (by omega) hjs heq
    · rw [if_neg hi2] at heq
      simp only [Prod.mk.injEq] at heq
      omega

/-! ### `kmpPattern.Match` wrapper lemmas (always called with `index = 0`
by the pair automaton, which resets `index` before every call) -/

lemma kmpMatch_not_full {p : List Nat} {o : Nat} {b : List Nat} {i' o' : Nat}
    (heq : (newKmpPattern p).Match 0 o b = (i', o', false)) : o ≠ p.length := by
  intro hcon
  simp only [kmpPattern.Match, newKmpPattern, hcon, if_pos] at heq
  exact absurd (congrArg (fun t => t.2.2) heq) (by simp)

lemma kmpMatch_scan {p : List Nat} {o : Nat} {b : List Nat} (hne : o ≠ p.length) :
    (newKmpPattern p).Match 0 o b =
      kmpGo p (computeLpsArray p) b (2 * b.length + 1) o o := by
  simp only [kmpPattern.Match, newKmpPattern, hne, if_false, Nat.zero_add, if_neg,
    Nat.add_eq]

lemma kmpMatch_ok_exit {p : List Nat} {o : Nat} {b : List Nat} {i' o' : Nat}
    (hob : o ≤ b.length)
    (heq : (newKmpPattern p).Match 0 o b = (i', o', true)) :
    i' + o' ≤ b.length ∧ o' = p.length := by
  by_cases hfull : o = p.length
  · simp only [kmpPattern.Match, newKmpPattern, hfull, if_pos, Prod.mk.injEq] at heq
    obtain ⟨h1, h2, _⟩ := heq
    subst h1; subst h2
    exact ⟨by omega, rfl⟩
  · rw [kmpMatch_scan hfull] at heq
    have h := kmpGo_ok_exit p (computeLpsArray p) b (computeLpsArray_le p) _ o o i' o'
      (le_refl o) hob heq
    exact ⟨h.1, h.2.1⟩

lemma kmpMatch_fail_exit {p : List Nat} {o : Nat} {b : List Nat} {i' o' : Nat}
    (hob : o ≤ b.length) (hop : o ≤ p.length)
    (heq : (newKmpPattern p).Match 0 o b = (i', o', false)) :
    i' + o' = b.length ∧ o' < p.length := by
  have hne := kmpMatch_not_full heq
  rw [kmpMatch_scan hne] at heq
  have ht := computeLpsArray_le p
  constructor
  · exact kmpGo_fail_at_end p (computeLpsArray p) b ht _ o o i' o' (le_refl o) hob
      (by omega) heq
  · exact (kmpGo_fail_bounds p (computeLpsArray p) b ht _ o o i' o' (le_refl o) hob
      (by omega) heq).1

/-- Streaming resumption of the KMP sub-matcher: after a failed call, the
pair automaton releases `index'` bytes and retries with `(0, offset')` on
the shortened buffer plus the next chunk; that retry computes exactly the
continuation of a single call on the full buffer plus the chunk. -/
lemma kmpMatch_resume {p : List Nat} {o : Nat} {b : List Nat} {i' o' : Nat}
    (hob : o ≤ b.length) (hop : o ≤ p.length)
    (heq : (newKmpPattern p).Match 0 o b = (i', o', false)) (e : List Nat) :
    (newKmpPattern p).Match 0 o (b ++ e) =
      (i' + ((newKmpPattern p).Match 0 o' (b.drop i' ++ e)).1,
        ((newKmpPattern p).Match 0 o' (b.drop i' ++ e)).2) := by
  have ht := computeLpsArray_le p
  have hne := kmpMatch_not_full heq
  have hfe := kmpMatch_fail_exit hob hop heq
  have hi'b : i' ≤ b.length := by omega
  rw [kmpMatch_scan hne] at heq
  -- move the failed scan of `b` to the large fuel
  have h1 : kmpGo p (computeLpsArray p) b (2 * (b ++ e).length + 1) o o =
      (i', o', false) := by
    rw [kmpGo_fuel_eq p (computeLpsArray p) b ht _ (2 * b.length + 1) o o (le_refl o)
      (by simp; omega) (by omega)]
    exact heq
  -- replay it on `b ++ e`
  obtain ⟨g, hg, h2⟩ := kmpGo_replay p (computeLpsArray p) b e ht
    (2 * (b ++ e).length + 1) o o i' o' (le_refl o) hob (by simp; omega) h1
  -- shift out the `i'` released bytes
  have h3 := kmpGo_shift p (computeLpsArray p) (b ++ e) ht i' (by simp; omega) g
    b.length o' (by omega)
  have hdrop : (b ++ e).drop i' = b.drop i' ++ e :=
    List.drop_append_of_le_length hi'b
  have hsub : b.length - i' = o' := by omega
  rw [hdrop, hsub] at h3
  -- move the resumed scan to the fuel of the wrapper on the short buffer
  have hlen2 : (b.drop i' ++ e).length = o' + e.length := by
    simp; omega
  have h4 : kmpGo p (computeLpsArray p) (b.drop i' ++ e) g o' o' =
      kmpGo p (computeLpsArray p) (b.drop i' ++ e)
        (2 * (b.drop i' ++ e).length + 1) o' o' := by
    apply kmpGo_fuel_eq p (computeLpsArray p) _ ht _ _ o' o' (le_refl o')
    · rw [hlen2]; omega
    · rw [hlen2]; omega
  have hne2 : o' ≠ p.length := by omega
  rw [kmpMatch_scan hne, kmpMatch_scan hne2, h2, h3, h4]

/-- A successful call stays successful, with the same result, when the
buffer is extended on the right. -/
lemma kmpMatch_ok_ext {p : List Nat} {o : Nat} {b : List Nat} {i' o' : Nat}
    (hob : o ≤ b.length)
    (heq : (newKmpPattern p).Match 0 o b = (i', o', true)) (e : List Nat) :
    (newKmpPattern p).Match 0 o (b ++ e) = (i', o', true) := by
  have ht := computeLpsArray_le p
  by_cases hfull : o = p.length
  · simp only [kmpPattern.Match, newKmpPattern, hfull, if_pos, Prod.mk.injEq] at heq ⊢
    obtain ⟨h1, h2, _⟩ := heq
    exact ⟨h1, h2, trivial⟩
  · rw [kmpMatch_scan hfull] at heq ⊢
    have h1 : kmpGo p (computeLpsArray p) b (2 * (b ++ e).length + 1) o o =
        (i', o', true) := by
      rw [kmpGo_fuel_eq p (computeLpsArray p) b ht _ (2 * b.length + 1) o o (le_refl o)
        (by simp; omega) (by omega)]
      exact heq
    exact kmpGo_ext_ok p (computeLpsArray p) b e _ o o i' o' hob h1

/-- After a success with reported offset `o'`, a retry with `(0, o')` on any
buffer immediately reports the same success at the front (`los.go` 421-422,
the `offset == pat.length` early return). -/
lemma kmpMatch_reentry {p : List Nat} {o : Nat} {b : List Nat} {i' o' : Nat}
    (hob : o ≤ b.length)
    (heq : (newKmpPattern p).Match 0 o b = (i', o', true)) (b2 : List Nat) :
    (newKmpPattern p).Match 0 o' b2 = (0, o', true) := by
  have h := (kmpMatch_ok_exit hob heq).2
  simp only [kmpPattern.Match, newKmpPattern, h, if_pos]

/-! ## The matcher over a literal/literal pair

`NewMatcher` on a `Pair` with no regex options builds
`[2]pattern{newKmpPattern(head), newKmpPattern(tail)}` (`los.go` 240-254);
the KMP sub-matchers carry no mutable state, so the pattern-state type is
`Unit`. -/

/-- The source string of `patterns[slot]` for a literal pair. -/
def patOf (head tail : List Nat) (slot : Nat) : List Nat :=
  if slot = 0 then head else tail

/-- `patterns[slot].Match` for the literal/literal matcher. -/
def kmpStep (head tail : List Nat) : PatStep Unit :=
  fun slot _ index offset buffer =>
    ((), (newKmpPattern (patOf head tail slot)).Match index offset buffer)

/-- The persistent-state invariant of the literal matcher between `Match`
calls: the automaton state is one of the two searching states, `index` has
been reset to `0`, and the suspended `offset` is within both the buffer and
the active pattern. -/
def MInv (head tail : List Nat) (s : MState Unit) : Prop :=
  (s.state = 0 ∨ s.state = 2) ∧ s.index = 0 ∧
    s.offset ≤ s.buffer.length ∧
    s.offset ≤ (patOf head tail (s.state >>> 1)).length

lemma MInv_initM (head tail : List Nat) : MInv head tail (initM ()) := by
  refine ⟨Or.inl rfl, rfl, ?_, ?_⟩ <;> simp [initM]

lemma state_shift_xor {st : Nat} (h : st = 0 ∨ st = 2) :
    (st ^^^ 2 = 0 ∨ st ^^^ 2 = 2) ∧
      ((st ^^^ 2) >>> 1 = if st >>> 1 = 0 then 1 else 0) := by
  rcases h with h | h <;> subst h <;> simp

lemma runLoop_kmp_spec (head tail : List Nat) (hh : head ≠ []) (htl : tail ≠ []) :
    ∀ fuel st offset buffer,
      (st = 0 ∨ st = 2) → offset ≤ buffer.length →
      offset ≤ (patOf head tail (st >>> 1)).length →
      buffer.length < fuel →
      (∀ seg ∈ (runLoop (kmpStep head tail) fuel st () 0 offset buffer).1,
          1 ≤ seg.raw.length) ∧
        MInv head tail (runLoop (kmpStep head tail) fuel st () 0 offset buffer).2 := by
  intro fuel
  induction fuel with
  | zero => intro st offset buffer _ _ _ hfuel; omega
  | succ fuel ih =>
    intro st offset buffer hst hob hop hfuel
    have hps : head.length ≥ 1 := by
      cases head with
      | nil => exact absurd rfl hh
      | cons a l => simp
    have hpt : tail.length ≥ 1 := by
      cases tail with
      | nil => exact absurd rfl htl
      | cons a l => simp
    have hplen : 1 ≤ (patOf head tail (st >>> 1)).length := by
      unfold patOf
      by_cases hsl : st >>> 1 = 0 <;> simp [hsl] <;> omega
    simp only [runLoop, kmpStep]
    rcases hres : (newKmpPattern (patOf head tail (st >>> 1))).Match 0 offset buffer
      with ⟨i, o, ok⟩
    simp only [hres]
    cases ok with
    | true =>
      simp only [if_true]
      have hexit := kmpMatch_ok_exit hob hres
      have ho1 : 1 ≤ o := by omega
      have hrec := ih (st ^^^ 2) 0 ((buffer.drop i).drop o)
        ((state_shift_xor hst).1) (by simp) (by simp)
        (by simp; omega)
      constructor
      · intro seg hseg
        simp only [List.mem_append, List.mem_cons] at hseg
        rcases hseg with hseg | hseg | hseg
        · by_cases hi : 0 < i
          · simp only [hi, if_true, List.mem_singleton] at hseg
            subst hseg
            simp only [List.length_take]
            omega
          · simp only [hi, if_false, List.not_mem_nil] at hseg
        · subst hseg
          simp only [List.length_take, List.length_drop]
          omega
        · exact hrec.1 seg hseg
      · exact hrec.2
    | false =>
      simp only [if_false, Bool.false_eq_true]
      have hexit := kmpMatch_fail_exit hob hop hres
      by_cases hi : i = 0
      · simp only [hi, if_pos]
        exact ⟨by intro seg hseg; simp at hseg, hst, rfl,
          show o ≤ buffer.length by omega,
          show o ≤ (patOf head tail (st >>> 1)).length by omega⟩
      · simp only [hi, if_false]
        constructor
        · intro seg hseg
          simp only [List.mem_singleton] at hseg
          subst hseg
          simp only [List.length_take]
          omega
        · exact ⟨hst, rfl,
            show o ≤ (List.drop i buffer).length by simp; omega,
            show o ≤ (patOf head tail (st >>> 1)).length by omega⟩

lemma matchM_kmp_spec (head tail : List Nat) (hh : head ≠ []) (htl : tail ≠ [])
    (s : MState Unit) (c : List Nat) (hinv : MInv head tail s) :
    (∀ seg ∈ (matchM (kmpStep head tail) s c).1, 1 ≤ seg.raw.length) ∧
      MInv head tail (matchM (kmpStep head tail) s c).2 := by
  obtain ⟨hst, hidx, hob, hop⟩ := hinv
  unfold matchM
  rw [hidx]
  exact runLoop_kmp_spec head tail hh htl _ s.state s.offset (s.buffer ++ c) hst
    (by simp; omega) hop (by omega)

lemma feedAll_kmp_spec (head tail : List Nat) (hh : head ≠ []) (htl : tail ≠ []) :
    ∀ (chunks : List (List Nat)) (s : MState Unit), MInv head tail s →
      (∀ seg ∈ (feedAll (kmpStep head tail) s chunks).1, 1 ≤ seg.raw.length) ∧
        MInv head tail (feedAll (kmpStep head tail) s chunks).2 := by
  intro chunks
  induction chunks with
  | nil => intro s hinv; exact ⟨by intro seg hseg; simp [feedAll] at hseg, hinv⟩
  | cons c cs ih =>
    intro s hinv
    have h1 := matchM_kmp_spec head tail hh htl s c hinv
    have h2 := ih (matchM (kmpStep head tail) s c).2 h1.2
    refine ⟨?_, h2.2⟩
    intro seg hseg
    simp only [feedAll, List.mem_append] at hseg
    rcases hseg with hseg | hseg
    · exact h1.1 seg hseg
    · exact h2.1 seg hseg

/-- C5.  For a matcher built from a literal/literal `Pair` whose head and
tail satisfy the data-model invariant `len(head) ≥ 1 ∧ len(tail) ≥ 1`,
every segment emitted by `Match` over any sequence of input chunks has
`len(raw) ≥ 1`. -/
theorem claim_C5_nonempty (head tail : List Nat)
    (hh : 1 ≤ head.length) (htl : 1 ≤ tail.length)
    (chunks : List (List Nat)) (seg : Segment)
    (hseg : seg ∈ (feedAll (kmpStep head tail) (initM ()) chunks).1) :
    1 ≤ seg.raw.length := by
  have hh2 : head ≠ [] := by cases head <;> simp_all
  have ht2 : tail ≠ [] := by cases tail <;> simp_all
  exact (feedAll_kmp_spec head tail hh2 ht2 chunks (initM ())
    (MInv_initM head tail)).1 seg hseg

/-- Witness for C5 at the literal pair `("ab", "cd")` on the single chunk
`"abxcd"`, whose head segment `("HEAD", "ab")` is indeed emitted. -/
theorem claim_C5_nonempty_witness :
    1 ≤ (Segment.mk 1 (strBytes "ab")).raw.length :=
  claim_C5_nonempty (strBytes "ab") (strBytes "cd") (by decide) (by decide)
    [strBytes "abxcd"] ⟨1, strBytes "ab"⟩ (by decide)

/-- C7.  For the literal (KMP) sub-matcher with pattern `p` and any valid
resume point — `index + offset` within the buffer, `offset` at most the
pattern length, and `buffer[index .. index+offset)` equal to the first
`offset` pattern bytes — a non-match return `(index', offset', false)`
satisfies `buffer[index' .. index'+offset') = p[0 .. offset')`: the matcher
never fails, it always reports the live prefix it retains. -/
theorem claim_C7_kmp_prefix_spec (p b : List Nat) (index offset i' o' : Nat)
    (hv : index + offset ≤ b.length) (ho : offset ≤ p.length)
    (hpre : (b.drop index).take offset = p.take offset)
    (heq : (newKmpPattern p).Match index offset b = (i', o', false)) :
    (b.drop i').take o' = p.take o' := by
  have hne : offset ≠ p.length := by
    intro hcon
    simp only [kmpPattern.Match, newKmpPattern, hcon, if_pos] at heq
    exact absurd (congrArg (fun t => t.2.2) heq) (by simp)
  have hscan : kmpGo p (computeLpsArray p) b (2 * b.length + 1) (index + offset) offset =
      (i', o', false) := by
    simp only [kmpPattern.Match, newKmpPattern, hne, if_false, if_neg] at heq
    exact heq
  have hpre2 : (b.take (index + offset)).drop (index + offset - offset) = p.take offset := by
    rw [show index + offset - offset = index by omega, ← List.take_drop]
    exact hpre
  have h := kmpGo_invariant p (computeLpsArray p) b (computeLpsArray_le p)
    (fun k => (computeLpsArray_borderTable p k).2) _ (index + offset) offset i' o' false
    (by omega) hv (by omega) hpre2 hscan
  rw [List.take_drop, show i' + o' = i' + o' by rfl]
  exact h.2.2.1

/-- Witness for C7: pattern `"abc"` on buffer `"xxab"` from the fresh
resume point `(0, 0)` fails with `(2, 2)`, and the retained window `"ab"`
is the two-byte pattern prefix. -/
theorem claim_C7_kmp_prefix_spec_witness :
    ((strBytes "xxab").drop 2).take 2 = (strBytes "abc").take 2 :=
  claim_C7_kmp_prefix_spec (strBytes "abc") (strBytes "xxab") 0 0 2 2
    (by decide) (by decide) (by decide) (by decide)

lemma runLoop_kmp_fuel_eq (head tail : List Nat) (hh : head ≠ []) (htl : tail ≠ []) :
    ∀ f g st offset buffer,
      (st = 0 ∨ st = 2) → offset ≤ buffer.length →
      offset ≤ (patOf head tail (st >>> 1)).length →
      buffer.length < f → buffer.length < g →
      runLoop (kmpStep head tail) f st () 0 offset buffer =
        runLoop (kmpStep head tail) g st () 0 offset buffer := by
  intro f
  induction f with
  | zero => intro g st offset buffer _ _ _ hf _; omega
  | succ f ih =>
    intro g st offset buffer hst hob hop hf hg
    cases g with
    | zero => omega
    | succ g =>
      simp only [runLoop, kmpStep]
      rcases hres : (newKmpPattern (patOf head tail (st >>> 1))).Match 0 offset buffer
        with ⟨i, o, ok⟩
      simp only [hres]
      cases ok with
      | true =>
        simp only [if_true]
        have hexit := kmpMatch_ok_exit hob hres
        have hps : head.length ≥ 1 := by
          cases head with
          | nil => exact absurd rfl hh
          | cons a l => simp
        have hpt : tail.length ≥ 1 := by
          cases tail with
          | nil => exact absurd rfl htl
          | cons a l => simp
        have hplen : 1 ≤ (patOf head tail (st >>> 1)).length := by
          unfold patOf
          by_cases hsl : st >>> 1 = 0 <;> simp [hsl] <;> omega
        have ho1 : 1 ≤ o := by omega
        have := ih g (st ^^^ 2) 0 ((buffer.drop i).drop o)
          ((state_shift_xor hst).1) (by simp) (by simp) (by simp; omega) (by simp; omega)
        rw [this]
      | false => rfl

lemma labeledOf_nil : labeledOf [] = [] := rfl

lemma labeledOf_cons (sg : Segment) (rest : List Segment) :
    labeledOf (sg :: rest) = (sg.raw.map fun b => (sg.state, b)) ++ labeledOf rest := rfl

lemma labeledOf_append (a b : List Segment) :
    labeledOf (a ++ b) = labeledOf a ++ labeledOf b := by
  simp [labeledOf]

lemma runLoop_succ_ok (step : PatStep σ) (f st : Nat) (ps : σ)
    (index offset : Nat) (buffer : List Nat) (i o : Nat) (ps' : σ)
    (h : step (st >>> 1) ps index offset buffer = (ps', i, o, true)) :
    runLoop step (f + 1) st ps index offset buffer =
      ((if 0 < i then [⟨st, buffer.take i⟩] else []) ++
        ⟨st + 1, (buffer.drop i).take o⟩ ::
          (runLoop step f (st ^^^ 2) ps' 0 0 ((buffer.drop i).drop o)).1,
        (runLoop step f (st ^^^ 2) ps' 0 0 ((buffer.drop i).drop o)).2) := by
  simp only [runLoop, h, if_true]

lemma runLoop_succ_fail (step : PatStep σ) (f st : Nat) (ps : σ)
    (index offset : Nat) (buffer : List Nat) (i o : Nat) (ps' : σ)
    (h : step (st >>> 1) ps index offset buffer = (ps', i, o, false)) :
    runLoop step (f + 1) st ps index offset buffer =
      ((if i = 0 then [] else [⟨st, buffer.take i⟩]),
        ⟨st, 0, o, buffer.drop i, ps'⟩) := by
  simp only [runLoop, h, Bool.false_eq_true, if_false]
  by_cases hi : i = 0
  · subst hi; simp
  · simp [hi]

lemma labeledOf_guard_pos (n st : Nat) (X : List Nat) :
    labeledOf (if 0 < n then [⟨st, X.take n⟩] else []) =
      (X.take n).map fun b => (st, b) := by
  by_cases h : 0 < n
  · simp [h, labeledOf]
  · have hz : n = 0 := by omega
    subst hz
    simp [labeledOf]

lemma labeledOf_guard_zero (n st : Nat) (X : List Nat) :
    labeledOf (if n = 0 then [] else [⟨st, X.take n⟩]) =
      (X.take n).map fun b => (st, b) := by
  by_cases h : n = 0
  · subst h
    simp [labeledOf]
  · simp [h, labeledOf]

/-- Chunk-splitting lemma for the literal matcher: running the loop on
`B ++ e` emits, up to segment boundaries, the same labeled bytes as running
it on `B` alone and then handing the persisted state the extra chunk `e`;
the final states agree exactly. -/
lemma runLoop_kmp_append (head tail : List Nat) (hh : head ≠ []) (htl : tail ≠ []) :
    ∀ f st offset B e,
      (st = 0 ∨ st = 2) → offset ≤ B.length →
      offset ≤ (patOf head tail (st >>> 1)).length →
      B.length < f →
      labeledOf (runLoop (kmpStep head tail) (f + e.length) st () 0 offset (B ++ e)).1 =
        labeledOf (runLoop (kmpStep head tail) f st () 0 offset B).1 ++
          labeledOf (matchM (kmpStep head tail)
            (runLoop (kmpStep head tail) f st () 0 offset B).2 e).1 ∧
      (runLoop (kmpStep head tail) (f + e.length) st () 0 offset (B ++ e)).2 =
        (matchM (kmpStep head tail)
          (runLoop (kmpStep head tail) f st () 0 offset B).2 e).2 := by
  intro f
  induction f with
  | zero => intro st offset B e _ _ _ hf; omega
  | succ f ih =>
    intro st offset B e hst hob hop hf
    have hps : head.length ≥ 1 := by
      cases head with
      | nil => exact absurd rfl hh
      | cons a l => simp
    have hpt : tail.length ≥ 1 := by
      cases tail with
      | nil => exact absurd rfl htl
      | cons a l => simp
    have hplen : 1 ≤ (patOf head tail (st >>> 1)).length := by
      unfold patOf
      by_cases hsl : st >>> 1 = 0 <;> simp [hsl] <;> omega
    rcases hres : (newKmpPattern (patOf head tail (st >>> 1))).Match 0 offset B
      with ⟨i, o, ok⟩
    have hfe : f + 1 + e.length = (f + e.length) + 1 := by omega
    cases ok with
    | true =>
      have hexit := kmpMatch_ok_exit hob hres
      have hcomb := kmpMatch_ok_ext hob hres e
      have ho1 : 1 ≤ o := by omega
      rw [hfe]
      simp only [runLoop, kmpStep, hres, hcomb, if_true]
      have ht1 : (B ++ e).take i = B.take i := List.take_append_of_le_length (by omega)
      have hd1 : (B ++ e).drop i = B.drop i ++ e :=
        List.drop_append_of_le_length (by omega)
      have ht2 : (B.drop i ++ e).take o = (B.drop i).take o :=
        List.take_append_of_le_length (by simp; omega)
      have hd2 : (B.drop i ++ e).drop o = (B.drop i).drop o ++ e :=
        List.drop_append_of_le_length (by simp; omega)
      rw [ht1, hd1, ht2, hd2]
      have hrec := ih (st ^^^ 2) 0 ((B.drop i).drop o) e
        ((state_shift_xor hst).1) (by simp) (by simp) (by simp; omega)
      constructor
      · rw [labeledOf_append, labeledOf_append, labeledOf_cons, labeledOf_cons,
          hrec.1, List.append_assoc, List.append_assoc]
      · exact hrec.2
    | false =>
      have hfail := kmpMatch_fail_exit hob hop hres
      have hcomb := kmpMatch_resume hob hop hres e
      rcases hr : (newKmpPattern (patOf head tail (st >>> 1))).Match 0 o (B.drop i ++ e)
        with ⟨i2, o2, ok2⟩
      rw [hr] at hcomb
      have hcomb2 : (newKmpPattern (patOf head tail (st >>> 1))).Match 0 offset (B ++ e) =
          (i + i2, o2, ok2) := by rw [hcomb]
      have hobd : o ≤ (B.drop i ++ e).length := by simp; omega
      have hiB : i ≤ B.length := by omega
      have htt : (B ++ e).take (i + i2) = B.take i ++ (B.drop i ++ e).take i2 := by
        rw [List.take_add, List.take_append_of_le_length hiB,
          List.drop_append_of_le_length hiB]
      have hdd : (B ++ e).drop (i + i2) = (B.drop i ++ e).drop i2 := by
        rw [← List.drop_drop, List.drop_append_of_le_length hiB]
      rw [hfe]
      rw [runLoop_succ_fail (kmpStep head tail) f st () 0 offset B i o ()
        (by simp [kmpStep, hres])]
      have hmm : matchM (kmpStep head tail) (⟨st, 0, o, B.drop i, ()⟩ : MState Unit) e =
          runLoop (kmpStep head tail) ((B.drop i ++ e).length + 1) st () 0 o
            (B.drop i ++ e) := rfl
      rw [hmm]
      cases ok2 with
      | true =>
        have hexit2 := kmpMatch_ok_exit hobd hr
        rw [runLoop_succ_ok (kmpStep head tail) (f + e.length) st () 0 offset (B ++ e)
            (i + i2) o2 () (by simp [kmpStep, hcomb2]),
          runLoop_succ_ok (kmpStep head tail) ((B.drop i ++ e).length) st () 0 o
            (B.drop i ++ e) i2 o2 () (by simp [kmpStep, hr])]
        rw [hdd]
        have hlen2 : (B.drop i ++ e).length = B.length - i + e.length := by simp
        have hfeq := runLoop_kmp_fuel_eq head tail hh htl (f + e.length)
          ((B.drop i ++ e).length) (st ^^^ 2) 0 (((B.drop i ++ e).drop i2).drop o2)
          ((state_shift_xor hst).1) (by simp) (by simp)
          (by simp only [List.length_drop, hlen2]; omega)
          (by simp only [List.length_drop]; omega)
        rw [hfeq]
        constructor
        · rw [labeledOf_append, labeledOf_cons, labeledOf_append, labeledOf_cons,
            labeledOf_guard_pos, labeledOf_guard_pos, labeledOf_guard_zero, htt,
            List.map_append]
          simp [List.append_assoc]
        · rfl
      | false =>
        rw [runLoop_succ_fail (kmpStep head tail) (f + e.length) st () 0 offset (B ++ e)
            (i + i2) o2 () (by simp [kmpStep, hcomb2]),
          runLoop_succ_fail (kmpStep head tail) ((B.drop i ++ e).length) st () 0 o
            (B.drop i ++ e) i2 o2 () (by simp [kmpStep, hr])]
        constructor
        · rw [labeledOf_guard_zero, labeledOf_guard_zero, labeledOf_guard_zero, htt]
          simp [List.map_append]
        · rw [hdd]

/-- A matcher state is parked when a `Match` call with no new input emits
nothing and leaves the state unchanged.  Every state actually persisted by
`matcher.Match` is parked: the failed sub-matcher call that suspended it
reports `(0, offset, false)` again when retried on the retained buffer. -/
def Parked (head tail : List Nat) (s : MState Unit) : Prop :=
  matchM (kmpStep head tail) s [] = ([], s)

lemma runLoop_kmp_parked (head tail : List Nat) (hh : head ≠ []) (htl : tail ≠ []) :
    ∀ fuel st offset buffer,
      (st = 0 ∨ st = 2) → offset ≤ buffer.length →
      offset ≤ (patOf head tail (st >>> 1)).length →
      buffer.length < fuel →
      Parked head tail (runLoop (kmpStep head tail) fuel st () 0 offset buffer).2 := by
  intro fuel
  induction fuel with
  | zero => intro st offset buffer _ _ _ hfuel; omega
  | succ fuel ih =>
    intro st offset buffer hst hob hop hfuel
    have hps : head.length ≥ 1 := by
      cases head with
      | nil => exact absurd rfl hh
      | cons a l => simp
    have hpt : tail.length ≥ 1 := by
      cases tail with
      | nil => exact absurd rfl htl
      | cons a l => simp
    have hplen : 1 ≤ (patOf head tail (st >>> 1)).length := by
      unfold patOf
      by_cases hsl : st >>> 1 = 0 <;> simp [hsl] <;> omega
    rcases hres : (newKmpPattern (patOf head tail (st >>> 1))).Match 0 offset buffer
      with ⟨i, o, ok⟩
    cases ok with
    | true =>
      rw [runLoop_succ_ok (kmpStep head tail) fuel st () 0 offset buffer i o ()
        (by simp [kmpStep, hres])]
      have hexit := kmpMatch_ok_exit hob hres
      exact ih (st ^^^ 2) 0 ((buffer.drop i).drop o) ((state_shift_xor hst).1)
        (by simp) (by simp) (by simp; omega)
    | false =>
      rw [runLoop_succ_fail (kmpStep head tail) fuel st () 0 offset buffer i o ()
        (by simp [kmpStep, hres])]
      have hfail := kmpMatch_fail_exit hob hop hres
      have hres2 := kmpMatch_resume hob hop hres []
      rw [List.append_nil, List.append_nil, hres] at hres2
      rcases hr : (newKmpPattern (patOf head tail (st >>> 1))).Match 0 o (buffer.drop i)
        with ⟨i2, o2, ok2⟩
      rw [hr] at hres2
      have h1 : i = i + i2 ∧ o = o2 ∧ false = ok2 := by
        have := hres2
        simp only [Prod.mk.injEq] at this
        exact this
      obtain ⟨e1, e2, e3⟩ := h1
      unfold Parked matchM
      simp only [List.append_nil]
      rw [runLoop_succ_fail (kmpStep head tail) (buffer.drop i).length st () 0 o
        (buffer.drop i) i2 o2 ()
        (by simp only [kmpStep]; rw [hr, ← e3])]
      have hi2 : i2 = 0 := by omega
      subst hi2
      rw [if_pos rfl]
      simp [e2]

lemma matchM_kmp_parked (head tail : List Nat) (hh : head ≠ []) (htl : tail ≠ [])
    (s : MState Unit) (c : List Nat) (hinv : MInv head tail s) :
    Parked head tail (matchM (kmpStep head tail) s c).2 := by
  obtain ⟨hst, hidx, hob, hop⟩ := hinv
  unfold matchM
  rw [hidx]
  exact runLoop_kmp_parked head tail hh htl _ s.state s.offset (s.buffer ++ c) hst
    (by simp; omega) hop (by omega)

/-- Feeding `c ++ c'` in one call emits the same labeled bytes as feeding
`c` and then `c'`, and leaves the same state. -/
lemma matchM_kmp_comp (head tail : List Nat) (hh : head ≠ []) (htl : tail ≠ [])
    (s : MState Unit) (c c' : List Nat) (hinv : MInv head tail s) :
    labeledOf (matchM (kmpStep head tail) s (c ++ c')).1 =
      labeledOf (matchM (kmpStep head tail) s c).1 ++
        labeledOf (matchM (kmpStep head tail)
          (matchM (kmpStep head tail) s c).2 c').1 ∧
    (matchM (kmpStep head tail) s (c ++ c')).2 =
      (matchM (kmpStep head tail) (matchM (kmpStep head tail) s c).2 c').2 := by
  obtain ⟨hst, hidx, hob, hop⟩ := hinv
  have h := runLoop_kmp_append head tail hh htl ((s.buffer ++ c).length + 1) s.state
    s.offset (s.buffer ++ c) c' hst (by simp; omega) hop (by omega)
  unfold matchM at h ⊢
  rw [hidx]
  have e1 : s.buffer ++ (c ++ c') = (s.buffer ++ c) ++ c' :=
    (List.append_assoc _ _ _).symm
  rw [e1]
  have e2 : ((s.buffer ++ c) ++ c').length + 1 =
      ((s.buffer ++ c).length + 1) + c'.length := by
    simp; omega
  rw [e2]
  exact h

lemma feedAll_kmp_single (head tail : List Nat) (hh : head ≠ []) (htl : tail ≠ []) :
    ∀ (chunks : List (List Nat)) (s : MState Unit),
      MInv head tail s → Parked head tail s →
      labeledOf (feedAll (kmpStep head tail) s chunks).1 =
        labeledOf (matchM (kmpStep head tail) s chunks.flatten).1 ∧
      (feedAll (kmpStep head tail) s chunks).2 =
        (matchM (kmpStep head tail) s chunks.flatten).2 := by
  intro chunks
  induction chunks with
  | nil =>
    intro s hinv hpark
    unfold Parked at hpark
    simp only [feedAll, List.flatten_nil, hpark, labeledOf_nil]
    exact ⟨trivial, trivial⟩
  | cons c cs ih =>
    intro s hinv hpark
    have hcomp := matchM_kmp_comp head tail hh htl s c cs.flatten hinv
    have hinv2 := (matchM_kmp_spec head tail hh htl s c hinv).2
    have hpark2 := matchM_kmp_parked head tail hh htl s c hinv
    have hih := ih (matchM (kmpStep head tail) s c).2 hinv2 hpark2
    simp only [feedAll, List.flatten_cons]
    constructor
    · rw [labeledOf_append, hcomp.1, hih.1]
    · rw [hcomp.2, hih.2]

/-- C3 (amended to literal pairs).  For every literal/literal `Pair` and
any two partitions of the same byte sequence into chunks, feeding each
partition chunk-by-chunk to a fresh matcher produces identical
labeled-byte streams (and identical final matcher states). -/
theorem claim_C3_chunking_literal (head tail : List Nat)
    (hh : 1 ≤ head.length) (htl : 1 ≤ tail.length)
    (p1 p2 : List (List Nat)) (hflat : p1.flatten = p2.flatten) :
    labeledOf (feedAll (kmpStep head tail) (initM ()) p1).1 =
      labeledOf (feedAll (kmpStep head tail) (initM ()) p2).1 := by
  have hh2 : head ≠ [] := by cases head <;> simp_all
  have ht2 : tail ≠ [] := by cases tail <;> simp_all
  have hpark : Parked head tail (initM ()) := by
    unfold Parked matchM initM
    simp only [List.nil_append, List.length_nil]
    rw [runLoop_succ_fail (kmpStep head tail) 0 0 () 0 0 [] 0 0 ()
      (by
        simp only [kmpStep, kmpPattern.Match, newKmpPattern]
        rw [if_neg (by simp [patOf]; omega)]
        rfl)]
    simp
  have h1 := feedAll_kmp_single head tail hh2 ht2 p1 (initM ())
    (MInv_initM head tail) hpark
  have h2 := feedAll_kmp_single head tail hh2 ht2 p2 (initM ())
    (MInv_initM head tail) hpark
  rw [h1.1, h2.1, hflat]

/-- Witness for the amended C3: the pair `("ab", "cd")`, with the stream
`"abxcd"` split as `["abx", "cd"]` versus `["abxcd"]`. -/
theorem claim_C3_chunking_literal_witness :
    labeledOf (feedAll (kmpStep (strBytes "ab") (strBytes "cd")) (initM ())
        [strBytes "abx", strBytes "cd"]).1 =
      labeledOf (feedAll (kmpStep (strBytes "ab") (strBytes "cd")) (initM ())
        [strBytes "abxcd"]).1 :=
  claim_C3_chunking_literal (strBytes "ab") (strBytes "cd") (by decide) (by decide)
    [strBytes "abx", strBytes "cd"] [strBytes "abxcd"] (by decide)

/-! ## Early termination of the lazy `Results` sequence

`runLoopStop` is `matcher.Match` (`los.go` 340-366) with an explicit
consumer budget `k`: the consumer pulls segments and breaks out of its
range loop while processing the `k`-th one, so that the `k`-th `yield`
returns `false` (`k = 0` models a consumer that never breaks).  The
returned flag records whether the run was cut by the `yield` that follows
a delimiter segment (`los.go` 353-355), the one place where `return`
happens before the `m.state` flip on line 356.  Note that the yield on
line 363 has its result ignored by the Go code, so a consumer break there
changes nothing. -/
def runLoopStop (step : PatStep σ) :
    Nat → Nat → Nat → σ → Nat → Nat → List Nat → List Segment × MState σ × Bool
  | 0, _, st, ps, index, offset, buffer => ([], ⟨st, index, offset, buffer, ps⟩, false)
  | fuel + 1, k, st, ps, index, offset, buffer =>
    let r := step (st >>> 1) ps index offset buffer
    let i := r.2.1
    let o := r.2.2.1
    if r.2.2.2 then
      if 0 < i then
        if k = 1 then
          ([⟨st, buffer.take i⟩], ⟨st, 0, o, buffer.drop i, r.1⟩, false)
        else
          if k - 1 = 1 then
            ([⟨st, buffer.take i⟩, ⟨st + 1, (buffer.drop i).take o⟩],
              ⟨st, 0, 0, (buffer.drop i).drop o, r.1⟩, true)
          else
            let res := runLoopStop step fuel (k - 2) (st ^^^ 2) r.1 0 0
              ((buffer.drop i).drop o)
            (⟨st, buffer.take i⟩ :: ⟨st + 1, (buffer.drop i).take o⟩ :: res.1, res.2)
      else
        if k = 1 then
          ([⟨st + 1, (buffer.drop i).take o⟩],
            ⟨st, 0, 0, (buffer.drop i).drop o, r.1⟩, true)
        else
          let res := runLoopStop step fuel (k - 1) (st ^^^ 2) r.1 0 0
            ((buffer.drop i).drop o)
          (⟨st + 1, (buffer.drop i).take o⟩ :: res.1, res.2)
    else
      if i = 0 then ([], ⟨st, 0, o, buffer, r.1⟩, false)
      else ([⟨st, buffer.take i⟩], ⟨st, 0, o, buffer.drop i, r.1⟩, false)

/-- `matcher.Match` with a consumer that stops pulling after `k` segments
(`k = 0`: consumes everything). -/
def matchMStop (step : PatStep σ) (k : Nat) (s : MState σ) (chunk : List Nat) :
    List Segment × MState σ × Bool :=
  runLoopStop step ((s.buffer ++ chunk).length + 1) k s.state s.pats s.index s.offset
    (s.buffer ++ chunk)

/-- C4 as stated is false: for the literal pair `("ab", "cd")` and the
single chunk `"abxcd"`, a consumer that stops at the boundary right after
the `HEAD` segment leaves the matcher with its state flip skipped
(`los.go` 353-356), and resuming emits `(NONE, "xcd")` instead of
`(BODY, "x") (TAIL, "cd")`. -/
theorem claim_C4_counterexample :
    labeledOf (matchMStop (kmpStep (strBytes "ab") (strBytes "cd")) 1 (initM ())
        (strBytes "abxcd")).1 ++
      labeledOf (matchM (kmpStep (strBytes "ab") (strBytes "cd"))
        (matchMStop (kmpStep (strBytes "ab") (strBytes "cd")) 1 (initM ())
          (strBytes "abxcd")).2.1 []).1 ≠
      labeledOf (matchM (kmpStep (strBytes "ab") (strBytes "cd")) (initM ())
        (strBytes "abxcd")).1 := by
  decide

lemma runLoopStop_succ_fail (step : PatStep σ) (f k st : Nat) (ps : σ)
    (index offset : Nat) (buffer : List Nat) (i o : Nat) (ps' : σ)
    (h : step (st >>> 1) ps index offset buffer = (ps', i, o, false)) :
    runLoopStop step (f + 1) k st ps index offset buffer =
      ((if i = 0 then [] else [⟨st, buffer.take i⟩]),
        ⟨st, 0, o, buffer.drop i, ps'⟩, false) := by
  simp only [runLoopStop, h, Bool.false_eq_true, if_false]
  by_cases hi : i = 0
  · subst hi; simp
  · simp [hi]

lemma runLoopStop_succ_ok_stop1 (step : PatStep σ) (f k st : Nat) (ps : σ)
    (index offset : Nat) (buffer : List Nat) (i o : Nat) (ps' : σ)
    (h : step (st >>> 1) ps index offset buffer = (ps', i, o, true))
    (hi : 0 < i) (hk : k = 1) :
    runLoopStop step (f + 1) k st ps index offset buffer =
      ([⟨st, buffer.take i⟩], ⟨st, 0, o, buffer.drop i, ps'⟩, false) := by
  simp only [runLoopStop, h, if_true, hi, hk, if_pos]

lemma runLoopStop_succ_ok_stop2 (step : PatStep σ) (f k st : Nat) (ps : σ)
    (index offset : Nat) (buffer : List Nat) (i o : Nat) (ps' : σ)
    (h : step (st >>> 1) ps index offset buffer = (ps', i, o, true))
    (hi : 0 < i) (hk : ¬ k = 1) (hk2 : k - 1 = 1) :
    runLoopStop step (f + 1) k st ps index offset buffer =
      ([⟨st, buffer.take i⟩, ⟨st + 1, (buffer.drop i).take o⟩],
        ⟨st, 0, 0, (buffer.drop i).drop o, ps'⟩, true) := by
  simp only [runLoopStop, h, if_true, hi, if_pos]
  rw [if_neg hk, if_pos hk2]

lemma runLoopStop_succ_ok_go1 (step : PatStep σ) (f k st : Nat) (ps : σ)
    (index offset : Nat) (buffer : List Nat) (i o : Nat) (ps' : σ)
    (h : step (st >>> 1) ps index offset buffer = (ps', i, o, true))
    (hi : 0 < i) (hk : ¬ k = 1) (hk2 : ¬ k - 1 = 1) :
    runLoopStop step (f + 1) k st ps index offset buffer =
      (⟨st, buffer.take i⟩ :: ⟨st + 1, (buffer.drop i).take o⟩ ::
          (runLoopStop step f (k - 2) (st ^^^ 2) ps' 0 0 ((buffer.drop i).drop o)).1,
        (runLoopStop step f (k - 2) (st ^^^ 2) ps' 0 0 ((buffer.drop i).drop o)).2) := by
  simp only [runLoopStop, h, if_true, hi, if_pos]
  rw [if_neg hk, if_neg hk2]

lemma runLoopStop_succ_ok_stopz (step : PatStep σ) (f k st : Nat) (ps : σ)
    (index offset : Nat) (buffer : List Nat) (i o : Nat) (ps' : σ)
    (h : step (st >>> 1) ps index offset buffer = (ps', i, o, true))
    (hi : ¬ 0 < i) (hk : k = 1) :
    runLoopStop step (f + 1) k st ps index offset buffer =
      ([⟨st + 1, (buffer.drop i).take o⟩],
        ⟨st, 0, 0, (buffer.drop i).drop o, ps'⟩, true) := by
  simp only [runLoopStop, h, if_true]
  rw [if_neg hi, if_pos hk]

lemma runLoopStop_succ_ok_goz (step : PatStep σ) (f k st : Nat) (ps : σ)
    (index offset : Nat) (buffer : List Nat) (i o : Nat) (ps' : σ)
    (h : step (st >>> 1) ps index offset buffer = (ps', i, o, true))
    (hi : ¬ 0 < i) (hk : ¬ k = 1) :
    runLoopStop step (f + 1) k st ps index offset buffer =
      (⟨st + 1, (buffer.drop i).take o⟩ ::
          (runLoopStop step f (k - 1) (st ^^^ 2) ps' 0 0 ((buffer.drop i).drop o)).1,
        (runLoopStop step f (k - 1) (st ^^^ 2) ps' 0 0 ((buffer.drop i).drop o)).2) := by
  simp only [runLoopStop, h, if_true]
  rw [if_neg hi, if_neg hk]

lemma matchM_nil_unfold (step : PatStep σ) (st o : Nat) (buf : List Nat) (ps : σ) :
    matchM step (⟨st, 0, o, buf, ps⟩ : MState σ) [] =
      runLoop step (buf.length + 1) st ps 0 o buf := by
  unfold matchM
  simp

lemma kmpParked_fail (head tail : List Nat) (st offset : Nat) (buffer : List Nat)
    (i o : Nat) (hob : offset ≤ buffer.length)
    (hop : offset ≤ (patOf head tail (st >>> 1)).length)
    (hres : (newKmpPattern (patOf head tail (st >>> 1))).Match 0 offset buffer =
      (i, o, false)) :
    matchM (kmpStep head tail) (⟨st, 0, o, buffer.drop i, ()⟩ : MState Unit) [] =
      ([], ⟨st, 0, o, buffer.drop i, ()⟩) := by
  have hres2 := kmpMatch_resume hob hop hres []
  rw [List.append_nil, List.append_nil, hres] at hres2
  rcases hr : (newKmpPattern (patOf head tail (st >>> 1))).Match 0 o (buffer.drop i)
    with ⟨i2, o2, ok2⟩
  rw [hr] at hres2
  have h1 : i = i + i2 ∧ o = o2 ∧ false = ok2 := by
    have := hres2
    simp only [Prod.mk.injEq] at this
    exact this
  obtain ⟨e1, e2, e3⟩ := h1
  rw [matchM_nil_unfold]
  rw [runLoop_succ_fail (kmpStep head tail) (buffer.drop i).length st () 0 o
    (buffer.drop i) i2 o2 () (by simp only [kmpStep]; rw [hr, ← e3])]
  have hi2 : i2 = 0 := by omega
  subst hi2
  rw [if_pos rfl]
  simp [e2]

/-- If the consumer did not break at a yield that immediately follows a
delimiter segment, the persisted state is intact: an empty resuming
`Match` call catches up to exactly the remaining labeled bytes and the
same final state as the uninterrupted run. -/
lemma runLoopStop_kmp_resume (head tail : List Nat) (hh : head ≠ []) (htl : tail ≠ []) :
    ∀ fuel k st offset buffer,
      (st = 0 ∨ st = 2) → offset ≤ buffer.length →
      offset ≤ (patOf head tail (st >>> 1)).length →
      buffer.length < fuel →
      (runLoopStop (kmpStep head tail) fuel k st () 0 offset buffer).2.2 = false →
      labeledOf (runLoopStop (kmpStep head tail) fuel k st () 0 offset buffer).1 ++
          labeledOf (matchM (kmpStep head tail)
            (runLoopStop (kmpStep head tail) fuel k st () 0 offset buffer).2.1 []).1 =
        labeledOf (runLoop (kmpStep head tail) fuel st () 0 offset buffer).1 ∧
      (matchM (kmpStep head tail)
          (runLoopStop (kmpStep head tail) fuel k st () 0 offset buffer).2.1 []).2 =
        (runLoop (kmpStep head tail) fuel st () 0 offset buffer).2 := by
  intro fuel
  induction fuel with
  | zero => intro k st offset buffer _ _ _ hfuel; omega
  | succ fuel ih =>
    intro k st offset buffer hst hob hop hfuel hflag
    have hps : head.length ≥ 1 := by
      cases head with
      | nil => exact absurd rfl hh
      | cons a l => simp
    have hpt : tail.length ≥ 1 := by
      cases tail with
      | nil => exact absurd rfl htl
      | cons a l => simp
    have hplen : 1 ≤ (patOf head tail (st >>> 1)).length := by
      unfold patOf
      by_cases hsl : st >>> 1 = 0 <;> simp [hsl] <;> omega
    rcases hres : (newKmpPattern (patOf head tail (st >>> 1))).Match 0 offset buffer
      with ⟨i, o, ok⟩
    have hstep : kmpStep head tail (st >>> 1) () 0 offset buffer = ((), i, o, ok) := by
      simp [kmpStep, hres]
    cases ok with
    | false =>
      rw [runLoopStop_succ_fail (kmpStep head tail) fuel k st () 0 offset buffer i o ()
          hstep,
        runLoop_succ_fail (kmpStep head tail) fuel st () 0 offset buffer i o () hstep]
      have hpark := kmpParked_fail head tail st offset buffer i o hob hop hres
      rw [hpark]
      exact ⟨by rw [labeledOf_nil, List.append_nil], rfl⟩
    | true =>
      have hexit := kmpMatch_ok_exit hob hres
      have ho1 : 1 ≤ o := by omega
      have hre := kmpMatch_reentry hob hres (buffer.drop i)
      by_cases hi : 0 < i
      · by_cases hk : k = 1
        · -- stopped right before the delimiter: the reentry call recovers it
          rw [runLoopStop_succ_ok_stop1 (kmpStep head tail) fuel k st () 0 offset buffer
              i o () hstep hi hk,
            runLoop_succ_ok (kmpStep head tail) fuel st () 0 offset buffer i o () hstep]
          rw [matchM_nil_unfold]
          rw [runLoop_succ_ok (kmpStep head tail) (buffer.drop i).length st () 0 o
            (buffer.drop i) 0 o () (by simp [kmpStep, hre])]
          have hfeq := runLoop_kmp_fuel_eq head tail hh htl
            ((buffer.drop i).length) fuel (st ^^^ 2) 0
            (((buffer.drop i).drop 0).drop o)
            ((state_shift_xor hst).1) (by simp) (by simp)
            (by simp; omega) (by simp; omega)
          rw [hfeq]
          constructor
          · simp only [labeledOf_cons, labeledOf_append, labeledOf_nil,
              labeledOf_guard_pos, List.drop_zero, List.append_assoc, List.append_nil,
              List.nil_append]
            simp
          · simp
        · by_cases hk2 : k - 1 = 1
          · rw [runLoopStop_succ_ok_stop2 (kmpStep head tail) fuel k st () 0 offset
              buffer i o () hstep hi hk hk2] at hflag
            exact absurd hflag (by simp)
          · rw [runLoopStop_succ_ok_go1 (kmpStep head tail) fuel k st () 0 offset
                buffer i o () hstep hi hk hk2] at hflag ⊢
            rw [runLoop_succ_ok (kmpStep head tail) fuel st () 0 offset buffer i o ()
                hstep]
            simp only at hflag
            have hrec := ih (k - 2) (st ^^^ 2) 0 ((buffer.drop i).drop o)
              ((state_shift_xor hst).1) (by simp) (by simp) (by simp; omega) hflag
            constructor
            · simp only [labeledOf_cons, labeledOf_append, labeledOf_guard_pos,
                List.append_assoc]
              rw [hrec.1]
            · exact hrec.2
      · have hiz : i = 0 := by omega
        subst hiz
        by_cases hk : k = 1
        · rw [runLoopStop_succ_ok_stopz (kmpStep head tail) fuel k st () 0 offset
            buffer 0 o () hstep hi hk] at hflag
          exact absurd hflag (by simp)
        · rw [runLoopStop_succ_ok_goz (kmpStep head tail) fuel k st () 0 offset
              buffer 0 o () hstep hi hk] at hflag ⊢
          rw [runLoop_succ_ok (kmpStep head tail) fuel st () 0 offset buffer 0 o ()
              hstep]
          simp only at hflag
          have hrec := ih (k - 1) (st ^^^ 2) 0 ((buffer.drop 0).drop o)
            ((state_shift_xor hst).1) (by simp) (by simp) (by simp; omega) hflag
          constructor
          · simp only [labeledOf_cons, labeledOf_append, labeledOf_guard_pos,
              List.append_assoc, List.take_zero, List.nil_append, Nat.lt_irrefl,
              if_false, labeledOf_nil, List.map_nil]
            rw [hrec.1]
          · exact hrec.2

/-- C4 (amended).  For a literal-pair matcher in any valid persisted state,
if the consumer of the lazy `Results` sequence stops pulling at a boundary
that is not immediately after a delimiter (`HEAD`/`TAIL`) segment, the
persisted state is uncorrupted: an empty resuming `Match` call emits
exactly the remaining labeled bytes of the interrupted call and leaves the
matcher in the same state as full consumption, so all subsequent `Match`
and `Drain` calls behave identically. -/
theorem claim_C4_stop_resume (head tail : List Nat)
    (hh : 1 ≤ head.length) (htl : 1 ≤ tail.length)
    (s : MState Unit) (hinv : MInv head tail s) (c : List Nat) (k : Nat)
    (hflag : (matchMStop (kmpStep head tail) k s c).2.2 = false) :
    labeledOf (matchMStop (kmpStep head tail) k s c).1 ++
        labeledOf (matchM (kmpStep head tail)
          (matchMStop (kmpStep head tail) k s c).2.1 []).1 =
      labeledOf (matchM (kmpStep head tail) s c).1 ∧
    (matchM (kmpStep head tail) (matchMStop (kmpStep head tail) k s c).2.1 []).2 =
      (matchM (kmpStep head tail) s c).2 := by
  have hh2 : head ≠ [] := by cases head <;> simp_all
  have ht2 : tail ≠ [] := by cases tail <;> simp_all
  obtain ⟨hst, hidx, hob, hop⟩ := hinv
  unfold matchMStop at hflag ⊢
  unfold matchM
  rw [hidx] at hflag ⊢
  exact runLoopStop_kmp_resume head tail hh2 ht2 _ k s.state s.offset
    (s.buffer ++ c) hst (by simp; omega) hop (by omega) hflag

/-- Witness for the amended C4: pair `("ab", "cd")`, chunk `"abxcd"`, and a
consumer that stops after two segments — the `HEAD` delimiter and the
`(BODY, "x")` content segment, a content boundary, so the stop is safe. -/
theorem claim_C4_stop_resume_witness :
    labeledOf (matchMStop (kmpStep (strBytes "ab") (strBytes "cd")) 2 (initM ())
        (strBytes "abxcd")).1 ++
        labeledOf (matchM (kmpStep (strBytes "ab") (strBytes "cd"))
          (matchMStop (kmpStep (strBytes "ab") (strBytes "cd")) 2 (initM ())
            (strBytes "abxcd")).2.1 []).1 =
      labeledOf (matchM (kmpStep (strBytes "ab") (strBytes "cd")) (initM ())
        (strBytes "abxcd")).1 ∧
    (matchM (kmpStep (strBytes "ab") (strBytes "cd"))
        (matchMStop (kmpStep (strBytes "ab") (strBytes "cd")) 2 (initM ())
          (strBytes "abxcd")).2.1 []).2 =
      (matchM (kmpStep (strBytes "ab") (strBytes "cd")) (initM ())
        (strBytes "abxcd")).2 :=
  claim_C4_stop_resume (strBytes "ab") (strBytes "cd") (by decide) (by decide)
    (initM ()) (MInv_initM _ _) (strBytes "abxcd") 2 (by decide)

/-! ## The streaming NFA VM (`internal/legex/legex_machine.go`)

The compiled program (`regexp/syntax`, not part of the repository) is an
external input per the interface it exposes: an instruction list with
`{Op, Out, Arg, Rune}`, a start pc, a capture-slot count, the start
condition bitmask, the `longest` flag and the (always empty, see the WARN
comment at `legex_machine.go` 158-159) literal prefix.  Runes are `Int`
(`endOfText = -1`), byte positions `Nat`, capture slots and `accum` `Int`
as in Go.  A `panicked` flag models the Go panics (`"bad inst"`,
`"unhandled"`, and the nil-thread dereference in the `InstMatch` case of
`add`); fuel exhaustion also sets it, so no theorem can rest on a
truncated run. -/

inductive InstOp where
  | InstAlt
  | InstAltMatch
  | InstCapture
  | InstEmptyWidth
  | InstMatch
  | InstFail
  | InstNop
  | InstRune
  | InstRune1
  | InstRuneAny
  | InstRuneAnyNotNL
deriving Repr, DecidableEq

structure Inst where
  Op : InstOp
  Out : Nat
  Arg : Nat
  Rune : List Int
deriving Repr, DecidableEq

structure Prog where
  Inst : List Inst
  Start : Nat
  NumCap : Nat
deriving Repr, DecidableEq

/-- Modelled from the spec of the external collaborator
`regexp/syntax.Inst.MatchRune` (the package is not vendored into the
repository): a rune list of length one matches that exact rune, otherwise
the list is consecutive `[lo, hi]` ranges.  Case-folding variants are not
used by the programs considered here. -/
def matchRunePairs : List Int → Int → Bool
  | [], _ => false
  | [r], c => c == r
  | lo :: hi :: rest, c => (lo ≤ c && c ≤ hi) || matchRunePairs rest c

def endOfText : Int := -1

/-- `lazyFlag` (`legex_machine.go` 410-414): the packed `(prev, next)` rune
pair, unpacked here (packing `uint64(r1)<<32 | uint64(uint32(r2))` and
re-extracting is the identity on 32-bit runes). -/
structure lazyFlag where
  r1 : Int
  r2 : Int
deriving Repr, DecidableEq

def newLazyFlag (r1 r2 : Int) : lazyFlag := ⟨r1, r2⟩

/-- `regexp/syntax` empty-width condition bits (external interface). -/
def EmptyBeginLine : Nat := 1
def EmptyEndLine : Nat := 2
def EmptyBeginText : Nat := 4
def EmptyEndText : Nat := 8
def EmptyWordBoundary : Nat := 16
def EmptyNoWordBoundary : Nat := 32

/-- `op &^ mask` on the 6-bit `EmptyOp` domain. -/
def andNot (op mask : Nat) : Nat := op &&& (63 ^^^ mask)

/-- `regexp/syntax.IsWordChar` (external interface). -/
def IsWordChar (r : Int) : Bool :=
  (65 ≤ r && r ≤ 90) || (97 ≤ r && r ≤ 122) || (48 ≤ r && r ≤ 57) || r == 95

/-- `lazyFlag.match` (`legex_machine.go` 416-458). -/
def lazyFlag.match (f : lazyFlag) (op : Nat) : Bool :=
  if op = 0 then true
  else
    let r1 := f.r1
    if op &&& EmptyBeginLine ≠ 0 && (r1 ≠ 10 && 0 ≤ r1) then false
    else
      let op := if op &&& EmptyBeginLine ≠ 0 then andNot op EmptyBeginLine else op
      if op &&& EmptyBeginText ≠ 0 && 0 ≤ r1 then false
      else
        let op := if op &&& EmptyBeginText ≠ 0 then andNot op EmptyBeginText else op
        if op = 0 then true
        else
          let r2 := f.r2
          if op &&& EmptyEndLine ≠ 0 && (r2 ≠ 10 && 0 ≤ r2) then false
          else
            let op := if op &&& EmptyEndLine ≠ 0 then andNot op EmptyEndLine else op
            if op &&& EmptyEndText ≠ 0 && 0 ≤ r2 then false
            else
              let op := if op &&& EmptyEndText ≠ 0 then andNot op EmptyEndText else op
              if op = 0 then true
              else
                let op :=
                  if IsWordChar r1 ≠ IsWordChar r2 then andNot op EmptyWordBoundary
                  else andNot op EmptyNoWordBoundary
                op = 0

/-- Modelled from the interface of `unicode/utf8.DecodeRune` (external):
decode the first rune of the byte list; invalid encodings give
`(RuneError, 1)`. -/
def decodeRune (bs : List Nat) : Int × Nat :=
  match bs with
  | [] => (65533, 0)
  | b0 :: rest =>
    if b0 < 0x80 then ((b0 : Int), 1)
    else if b0 < 0xC2 then (65533, 1)
    else if b0 < 0xE0 then
      match rest with
      | b1 :: _ =>
        if 0x80 ≤ b1 && b1 < 0xC0 then
          (((b0 - 0xC0) * 64 + (b1 - 0x80) : Nat), 2)
        else (65533, 1)
      | [] => (65533, 1)
    else if b0 < 0xF0 then
      match rest with
      | b1 :: b2 :: _ =>
        if 0x80 ≤ b1 && b1 < 0xC0 && 0x80 ≤ b2 && b2 < 0xC0 &&
            ¬ (b0 = 0xE0 && b1 < 0xA0) && ¬ (b0 = 0xED && 0xA0 ≤ b1) then
          (((b0 - 0xE0) * 4096 + (b1 - 0x80) * 64 + (b2 - 0x80) : Nat), 3)
        else (65533, 1)
      | _ => (65533, 1)
    else if b0 < 0xF5 then
      match rest with
      | b1 :: b2 :: b3 :: _ =>
        if 0x80 ≤ b1 && b1 < 0xC0 && 0x80 ≤ b2 && b2 < 0xC0 && 0x80 ≤ b3 && b3 < 0xC0 &&
            ¬ (b0 = 0xF0 && b1 < 0x90) && ¬ (b0 = 0xF4 && 0x90 ≤ b1) then
          (((b0 - 0xF0) * 262144 + (b1 - 0x80) * 4096 + (b2 - 0x80) * 64 +
            (b3 - 0x80) : Nat), 4)
        else (65533, 1)
      | _ => (65533, 1)
    else (65533, 1)

/-- Modelled from the interface of `unicode/utf8.DecodeLastRune`: decode
the rune ending at the end of the list. -/
def decodeLastRune (bs : List Nat) : Int :=
  let n := bs.length
  if n = 0 then 65533
  else if bs.getD (n - 1) 0 < 0x80 then (bs.getD (n - 1) 0 : Int)
  else
    let tryFrom := fun (p : Nat) =>
      let r := decodeRune (bs.drop p)
      if p + r.2 = n then some r.1 else none
    match (if 1 ≤ n then tryFrom (n - 1) else none) with
    | some r => r
    | none =>
      match (if 2 ≤ n then tryFrom (n - 2) else none) with
      | some r => r
      | none =>
        match (if 3 ≤ n then tryFrom (n - 3) else none) with
        | some r => r
        | none =>
          match (if 4 ≤ n then tryFrom (n - 4) else none) with
          | some r => r
          | none => 65533

/-- `inputBytes.step` (`legex.go` part of the input abstraction): one-rune
read at `pos`, `(endOfText, 0)` past the end. -/
def inputStep (bs : List Nat) (pos : Nat) : Int × Nat :=
  if pos < bs.length then
    let c := bs.getD pos 0
    if c < 0x80 then ((c : Int), 1)
    else decodeRune (bs.drop pos)
  else (endOfText, 0)

/-- `inputBytes.context` (the `lazyFlag` of the runes around `pos`). -/
def inputContext (bs : List Nat) (pos : Nat) : lazyFlag :=
  let r1 : Int :=
    if 0 < pos ∧ pos ≤ bs.length then
      let c := bs.getD (pos - 1) 0
      if c < 0x80 then (c : Int) else decodeLastRune (bs.take pos)
    else endOfText
  let r2 : Int :=
    if pos < bs.length then
      let c := bs.getD pos 0
      if c < 0x80 then (c : Int) else (decodeRune (bs.drop pos)).1
    else endOfText
  newLazyFlag r1 r2

/-- A `thread` (`legex_machine.go` 68-71); the `inst` pointer is identified
by its pc. -/
structure thread where
  instPc : Nat
  cap : List Int
deriving Repr, DecidableEq

/-- A queue `entry` (`legex_machine.go` 60-63). -/
structure entry where
  pc : Nat
  t : Option thread
deriving Repr, DecidableEq

/-- A sparse-set `queue` (`legex_machine.go` 51-54). -/
structure queue where
  sparse : Array Nat
  dense : Array entry
deriving Repr, DecidableEq

/-- The `Machine` (`legex_machine.go` 74-83) together with the fields of
its `re` that the matching engine reads (`longest`, `cond`, `prefix`). -/
structure Machine where
  p : Prog
  reLongest : Bool
  reCond : Nat
  rePrefix : List Nat
  q0 : queue
  q1 : queue
  pool : List thread
  matched : Bool
  matchcap : List Int
  accum : Int
  panicked : Bool
deriving Repr, DecidableEq

/-- Go `copy(dst, src)`: overwrite the first `min` elements of `dst`. -/
def goCopy (dst src : List Int) : List Int :=
  src.take (min dst.length src.length) ++ dst.drop (min dst.length src.length)

/-- The mutable state threaded through `add` and `step`: the queue being
filled, the thread free-list, and the match record. -/
structure AddSt where
  q : queue
  pool : List thread
  matched : Bool
  matchcap : List Int
  panicked : Bool
deriving Repr, DecidableEq

/-- The `InstRune*` install step of `add` (`legex_machine.go` 383-394):
`t == nil` pops a thread from the free list (`Machine.alloc`,
`legex_machine.go` 94-105) and copies `cap` into it; a non-nil `t` is
reused with its own `cap` (which aliases the `cap` argument) deliberately
not copied. -/
def allocThread' (pool : List thread) (pc : Nat) (cap : List Int)
    (t : Option thread) : List thread × thread :=
  match t with
  | none =>
    match pool with
    | [] => ([], ⟨pc, cap⟩)
    | _ :: rest => (rest, ⟨pc, cap⟩)
  | some th => (pool, ⟨pc, th.cap⟩)

/-- `Machine.add` (`legex_machine.go` 322-397).  The `goto again` loop and
the recursive calls are driven by one fuel counter; every iteration that
does not return pushes a fresh pc into the dense array (the sparse-set
check), so `2 * |Inst| + 2` fuel is always enough, and running out sets
`panicked`.  The `cap` array aliases `t.cap` whenever `t ≠ none`, so after
a recursive call the caller resumes with the returned thread's own `cap`.
The `InstMatch` case dereferences `t` (`t.cap`), which in Go panics when
`t` is nil (reachable for patterns that match the empty string). -/
def Machine.add (p : Prog) (longest : Bool) (accum : Int) :
    Nat → AddSt → Nat → Nat → List Int → lazyFlag → Option thread →
      AddSt × Option thread
  | 0, st, _, _, _, _, t => ({ st with panicked := true }, t)
  | fuel + 1, st, pc, pos, cap, cond, t =>
    if pc = 0 then (st, t)
    else
      let j0 := st.q.sparse.getD pc 0
      if j0 < st.q.dense.size ∧ (st.q.dense.getD j0 ⟨0, none⟩).pc = pc then (st, t)
      else
        let j := st.q.dense.size
        let q1 : queue := ⟨st.q.sparse.setD pc j, st.q.dense.push ⟨pc, none⟩⟩
        let st := { st with q := q1 }
        match (p.Inst.getD pc ⟨.InstFail, 0, 0, []⟩).Op with
        | .InstFail => (st, t)
        | .InstAlt =>
          let r := Machine.add p longest accum fuel st
            (p.Inst.getD pc ⟨.InstFail, 0, 0, []⟩).Out pos cap cond t
          let cap2 := match r.2 with
            | some th => th.cap
            | none => cap
          Machine.add p longest accum fuel r.1
            (p.Inst.getD pc ⟨.InstFail, 0, 0, []⟩).Arg pos cap2 cond r.2
        | .InstAltMatch =>
          let r := Machine.add p longest accum fuel st
            (p.Inst.getD pc ⟨.InstFail, 0, 0, []⟩).Out pos cap cond t
          let cap2 := match r.2 with
            | some th => th.cap
            | none => cap
          Machine.add p longest accum fuel r.1
            (p.Inst.getD pc ⟨.InstFail, 0, 0, []⟩).Arg pos cap2 cond r.2
        | .InstEmptyWidth =>
          if cond.match (p.Inst.getD pc ⟨.InstFail, 0, 0, []⟩).Arg then
            Machine.add p longest accum fuel st
              (p.Inst.getD pc ⟨.InstFail, 0, 0, []⟩).Out pos cap cond t
          else (st, t)
        | .InstNop =>
          Machine.add p longest accum fuel st
            (p.Inst.getD pc ⟨.InstFail, 0, 0, []⟩).Out pos cap cond t
        | .InstCapture =>
          if (p.Inst.getD pc ⟨.InstFail, 0, 0, []⟩).Arg < cap.length then
            let cap2 := cap.set (p.Inst.getD pc ⟨.InstFail, 0, 0, []⟩).Arg (pos : Int)
            let r := Machine.add p longest accum fuel st
              (p.Inst.getD pc ⟨.InstFail, 0, 0, []⟩).Out pos cap2 cond none
            (r.1, t)
          else
            Machine.add p longest accum fuel st
              (p.Inst.getD pc ⟨.InstFail, 0, 0, []⟩).Out pos cap cond t
        | .InstMatch =>
          match t with
          | none => ({ st with panicked := true }, none)
          | some th =>
            let doRecord := th.cap.length > 0 ∧
              (¬ longest ∨ ¬ st.matched ∨ st.matchcap.getD 1 0 < (pos : Int))
            let th2 : thread :=
              if doRecord then
                ⟨th.instPc, (th.cap.set 0 (th.cap.getD 0 0 - accum)).set 1 (pos : Int)⟩
              else th
            let st :=
              if doRecord then { st with matchcap := goCopy st.matchcap th2.cap }
              else st
            let st :=
              if ¬ longest then
                { st with
                  pool := st.pool ++
                    ((st.q.dense.toList.drop (j + 1)).filterMap entry.t),
                  q := ⟨st.q.sparse, #[]⟩ }
              else st
            ({ st with matched := true }, some th2)
        | .InstRune =>
          let (pool2, th) := allocThread' st.pool pc cap t
          ({ st with
              pool := pool2,
              q := ⟨st.q.sparse, st.q.dense.setD j ⟨pc, some th⟩⟩ }, none)
        | .InstRune1 =>
          let (pool2, th) := allocThread' st.pool pc cap t
          ({ st with
              pool := pool2,
              q := ⟨st.q.sparse, st.q.dense.setD j ⟨pc, some th⟩⟩ }, none)
        | .InstRuneAny =>
          let (pool2, th) := allocThread' st.pool pc cap t
          ({ st with
              pool := pool2,
              q := ⟨st.q.sparse, st.q.dense.setD j ⟨pc, some th⟩⟩ }, none)
        | .InstRuneAnyNotNL =>
          let (pool2, th) := allocThread' st.pool pc cap t
          ({ st with
              pool := pool2,
              q := ⟨st.q.sparse, st.q.dense.setD j ⟨pc, some th⟩⟩ }, none)

/-- One entry of the `step` loop body (`legex_machine.go` 265-315): skip
placeholders, drop lower-priority threads in leftmost-longest mode, decide
the rune test, and either advance the thread via `add` into the next queue
or free it to the pool.  A non-rune instruction on a stored thread hits the
`panic("bad inst")` default. -/
def stepEntry (p : Prog) (lg : Bool) (accum : Int) (nextPos : Nat)
    (c : Int) (nextCond : lazyFlag) (addFuel : Nat) (st : AddSt)
    (d : entry) : AddSt :=
  if st.panicked then st
  else
    match d.t with
    | none => st
    | some t =>
      if lg ∧ st.matched ∧ 0 < t.cap.length ∧
          st.matchcap.getD 0 0 < t.cap.getD 0 0 then
        { st with pool := st.pool ++ [t] }
      else
        let i := p.Inst.getD t.instPc ⟨.InstFail, 0, 0, []⟩
        match i.Op with
        | .InstRune | .InstRune1 | .InstRuneAny | .InstRuneAnyNotNL =>
          let keep : Bool :=
            match i.Op with
            | .InstRune => matchRunePairs i.Rune c
            | .InstRune1 => c = i.Rune.getD 0 0
            | .InstRuneAny => true
            | _ => c ≠ 10
          let r :=
            if keep then
              Machine.add p lg accum addFuel st i.Out nextPos t.cap nextCond
                (some t)
            else (st, some t)
          match r.2 with
          | some th => { r.1 with pool := r.1.pool ++ [th] }
          | none => r.1
        | _ => { st with panicked := true }

/-- `Machine.step` (`legex_machine.go` 265-316): run every thread of `runq`
against rune `c` (`st.q` is the next queue being filled), then truncate
`runq.dense`. -/
def Machine.step (p : Prog) (lg : Bool) (accum : Int) (runq : queue)
    (st : AddSt) (nextPos : Nat) (c : Int) (nextCond : lazyFlag)
    (addFuel : Nat) : queue × AddSt :=
  (⟨runq.sparse, #[]⟩,
    runq.dense.toList.foldl (stepEntry p lg accum nextPos c nextCond addFuel)
      st)

/-- The loop of `Machine.matchPrefix` (`legex_machine.go` 237-248); `i1`
advances every iteration, so `|inner| + 1` fuel always finishes it. -/
def matchPfxGo (pfx inner : List Nat) : Nat → Nat → Nat → Nat × Nat
  | 0, i0, i1 => (i1 - i0, i0)
  | fuel + 1, i0, i1 =>
    if i0 < pfx.length ∧ i1 < inner.length then
      if pfx.getD i0 0 ≠ inner.getD i1 0 then
        matchPfxGo pfx inner fuel 0 (i1 + 1)
      else matchPfxGo pfx inner fuel (i0 + 1) (i1 + 1)
    else (i1 - i0, i0)

/-- `Machine.matchPrefix` (`legex_machine.go` 237-248).  With onepass
disabled `re.prefix` is always empty (`legex_machine.go` 157-159), so the
caller never reaches this. -/
def matchPfx (pfx inner : List Nat) (index offset : Nat) : Nat × Nat :=
  matchPfxGo pfx inner (inner.length + 1) offset (index + offset)

/-- Fuel for one `add` call tree: every iteration that does not return
pushes a fresh pc onto the dense array, and the first-match cut can empty
it again at most once per pushed entry, so a quadratic bound in the
program size dominates every run of the programs considered here. -/
def addFuelOf (p : Prog) : Nat := (p.Inst.length + 2) * (p.Inst.length + 2)

/-- Result of the `for` loop of `Machine.match` (`legex_machine.go`
143-232): the two queues in `runq`/`nextq` pointer order, the pool and
match record, the final `(index, offset)`, the queue-swap parity (the loop
swaps `runq, nextq` in place, and the prefix-failure `return` skips the
final `m.q0, m.q1 = *runq, *nextq` writeback), and whether that early
return was taken. -/
structure LoopRes where
  runq : queue
  nextq : queue
  pool : List thread
  matched : Bool
  matchcap : List Int
  panicked : Bool
  index : Nat
  offset : Nat
  swapped : Bool
  early : Bool
deriving Repr, DecidableEq

/-- The `for` loop of `Machine.match` (`legex_machine.go` 143-232).  Each
iteration either breaks, returns, or advances `index + offset` by
`width ≥ 1` (taking the empty-queue `continue` at most once in between),
so `2 * |buf| + 4` fuel is always enough; exhaustion sets `panicked`.
The `goto weave` from the prefix branch falls through to the weave block
with the outer `index`/`offset` (the `:=` in that branch shadows them). -/
def Machine.matchLoop (p : Prog) (lg : Bool) (accum : Int)
    (rePfx : List Nat) (buf : List Nat) :
    Nat → queue → queue → List thread → Bool → List Int → Bool →
      Nat → Nat → Int → Nat → Int → Nat → lazyFlag → Bool → LoopRes
  | 0, runq, nextq, pool, matched, matchcap, _, index, offset,
      _, _, _, _, _, swapped =>
    ⟨runq, nextq, pool, matched, matchcap, true, index, offset, swapped,
      false⟩
  | fuel + 1, runq, nextq, pool, matched, matchcap, panicked, index, offset,
      r, width, r1, width1, flag, swapped =>
    if panicked then
      ⟨runq, nextq, pool, matched, matchcap, true, index, offset, swapped,
        false⟩
    else if runq.dense.size = 0 ∧ matched then
      ⟨runq, nextq, pool, matched, matchcap, panicked, index, offset,
        swapped, false⟩
    else
      let pfxEarly : Option (Nat × Nat) :=
        if runq.dense.size = 0 ∧
            ¬ (rePfx.length = 0 ∨ offset = rePfx.length) then
          let io := matchPfx rePfx buf index offset
          if io.2 = rePfx.length then none else some io
        else none
      match pfxEarly with
      | some io =>
        ⟨runq, nextq, pool, matched, matchcap, panicked, io.1, io.2,
          swapped, true⟩
      | none =>
        let s1 : AddSt :=
          if ¬ matched then
            let mc :=
              if 0 < matchcap.length then
                matchcap.set 0 ((index + offset : Nat) : Int)
              else matchcap
            (Machine.add p lg accum (addFuelOf p)
              ⟨runq, pool, matched, mc, panicked⟩ p.Start (index + offset)
              mc flag none).1
          else ⟨runq, pool, matched, matchcap, panicked⟩
        let flag2 := newLazyFlag r r1
        if width = 0 then
          ⟨s1.q, nextq, s1.pool, s1.matched, s1.matchcap, s1.panicked,
            index, offset, swapped, false⟩
        else
          let sp := Machine.step p lg accum s1.q
            ⟨nextq, s1.pool, s1.matched, s1.matchcap, s1.panicked⟩
            (index + offset + width) r flag2 (addFuelOf p)
          let offset2 := offset + width
          if sp.2.matched then
            ⟨sp.1, sp.2.q, sp.2.pool, sp.2.matched, sp.2.matchcap,
              sp.2.panicked, index, offset2, swapped, false⟩
          else
            let runq2 := sp.2.q
            let nextq2 := sp.1
            if runq2.dense.size = 0 then
              let index2 := index + offset2
              let rw := inputStep buf index2
              let rw1 :=
                if rw.1 ≠ endOfText then inputStep buf (index2 + rw.2)
                else (r1, width1)
              Machine.matchLoop p lg accum rePfx buf fuel runq2 nextq2
                sp.2.pool sp.2.matched sp.2.matchcap sp.2.panicked
                index2 0 rw.1 rw.2 rw1.1 rw1.2 (newLazyFlag (-1) rw.1)
                (¬ swapped)
            else
              let rw1 :=
                if r1 ≠ endOfText then
                  inputStep buf (index + offset2 + width1)
                else (r1, width1)
              Machine.matchLoop p lg accum rePfx buf fuel runq2 nextq2
                sp.2.pool sp.2.matched sp.2.matchcap sp.2.panicked
                index offset2 r1 width1 rw1.1 rw1.2 flag2 (¬ swapped)

/-- `Machine.match` (`legex_machine.go` 110-235): the start-condition
sentinel check, the initial rune lookahead and lazy flag, the loop, and
the queue writeback (skipped, queues left in pointer order, when the
prefix branch returned early). -/
def Machine.matchRun (m : Machine) (index offset : Nat) (buf : List Nat) :
    Machine × Nat × Nat × Bool :=
  if m.reCond = 255 then (m, index, offset, false)
  else
    let rw := inputStep buf (index + offset)
    let rw1 :=
      if rw.1 ≠ endOfText then inputStep buf (index + offset + rw.2)
      else (endOfText, 0)
    let flag :=
      if offset = 0 then newLazyFlag (-1) rw.1
      else inputContext buf (index + offset)
    let res := Machine.matchLoop m.p m.reLongest m.accum m.rePrefix buf
      (2 * buf.length + 4) m.q0 m.q1 m.pool m.matched m.matchcap m.panicked
      index offset rw.1 rw.2 rw1.1 rw1.2 flag false
    if res.early then
      ({ m with
          q0 := if res.swapped then res.nextq else res.runq,
          q1 := if res.swapped then res.runq else res.nextq,
          pool := res.pool,
          matched := res.matched,
          matchcap := res.matchcap,
          panicked := res.panicked }, res.index, res.offset, false)
    else
      ({ m with
          q0 := res.runq,
          q1 := res.nextq,
          pool := res.pool,
          matched := res.matched,
          matchcap := res.matchcap,
          panicked := res.panicked }, res.index, res.offset, res.matched)

/-- Go `math.MaxInt` on a 64-bit platform. -/
def maxIntGo : Int := 9223372036854775807

/-- The shift fold of `Machine.Match` (`legex_machine.go` 26-31): minimum
of `e.t.cap[0] - m.accum` over live queue entries, from the `math.MaxInt`
sentinel. -/
def shiftFold (dense : List entry) (accum : Int) : Int :=
  dense.foldl
    (fun s e =>
      match e.t with
      | some t => min s (t.cap.getD 0 0 - accum)
      | none => s)
    maxIntGo

/-- `Machine.Match` (`legex_machine.go` 9-41): run `match`; on failure
either release up to the earliest surviving thread (accumulating the shift
into `accum`) or, with no live thread, release `idx`; on success reset
`accum` and `matched` and report the recorded capture span. -/
def Machine.Match (m : Machine) (index offset : Nat) (buf : List Nat) :
    Machine × Int × Int × Bool :=
  let r := Machine.matchRun m index offset buf
  let m2 := r.1
  if ¬ r.2.2.2 then
    let shift := shiftFold m2.q0.dense.toList m2.accum
    if shift = maxIntGo then
      ({ m2 with accum := m2.accum + (r.2.1 : Int) },
        (r.2.1 : Int), (r.2.2.1 : Int), false)
    else
      ({ m2 with accum := m2.accum + shift },
        (index : Int) + shift, (buf.length : Int) - ((index : Int) + shift),
        false)
  else
    ({ m2 with accum := 0, matched := false },
      m2.matchcap.getD 0 0, m2.matchcap.getD 1 0 - m2.matchcap.getD 0 0,
      true)

/-- A `Machine` as produced by `Regexp.Get` (`legex.go` 4-37) from an empty
`sync.Pool` entry: fresh zero `Machine`, `re`/`accum`/`matched`/`p` set,
`matchcap` a zero slice of length `NumCap`, queues with
`matchSize[mpool] = 128` sparse slots (all programs here are small) and
empty dense arrays. -/
def freshMachine (p : Prog) (lg : Bool) (cond : Nat) : Machine :=
  { p := p, reLongest := lg, reCond := cond, rePrefix := [],
    q0 := ⟨Array.mkArray 128 0, #[]⟩, q1 := ⟨Array.mkArray 128 0, #[]⟩,
    pool := [], matched := false,
    matchcap := List.replicate p.NumCap 0,
    accum := 0, panicked := false }

/-- `regexp/syntax.Compile` output for the pattern `abc` (modelled from
the documented instruction set: `Rune1` per literal byte, `Fail` at pc 0,
`Match` last, `Start` at the first literal, `NumCap = 2`,
`StartCond() = 0`). -/
def progAbc : Prog :=
  ⟨[⟨.InstFail, 0, 0, []⟩,
    ⟨.InstRune1, 2, 0, [97]⟩,
    ⟨.InstRune1, 3, 0, [98]⟩,
    ⟨.InstRune1, 4, 0, [99]⟩,
    ⟨.InstMatch, 0, 0, []⟩], 1, 2⟩

/-- `regexp/syntax.Compile` output for the anchored pattern `^abc`
(`InstEmptyWidth` with `EmptyBeginText`, then the literals;
`StartCond() = EmptyBeginText = 4`). -/
def progCaretAbc : Prog :=
  ⟨[⟨.InstFail, 0, 0, []⟩,
    ⟨.InstEmptyWidth, 2, 4, []⟩,
    ⟨.InstRune1, 3, 0, [97]⟩,
    ⟨.InstRune1, 4, 0, [98]⟩,
    ⟨.InstRune1, 5, 0, [99]⟩,
    ⟨.InstMatch, 0, 0, []⟩], 1, 2⟩

/-- The sub-matcher pair of a `Pair` with a regex head and a KMP literal
tail, dispatched by `m.patterns[m.state>>1]` (`los.go` 344): slot 0 runs
the regex machine carrying its state, slot 1 the literal tail.  The `int`
returns of `Machine.Match` are non-negative on every run considered here
and are clamped by `Int.toNat`. -/
def pairStepRK (tail : List Nat) : PatStep Machine :=
  fun slot m index offset buffer =>
    if slot = 0 then
      let r := Machine.Match m index offset buffer
      (r.1, r.2.1.toNat, r.2.2.1.toNat, r.2.2.2)
    else
      let r := (newKmpPattern tail).Match index offset buffer
      (m, r.1, r.2.1, r.2.2)

/-- A fresh machine for the pattern `abc` in first-match (Perl) mode. -/
def machAbc : Machine := freshMachine progAbc false 0

/-- The machine state after `Match(0, 0, "z")` on a fresh `abc` machine:
the call returns `(1, 0, false)`, leaves `accum = 1`, and parks one live
seed thread with `cap = [1, 0]`. -/
def machZ : Machine := (Machine.Match machAbc 0 0 [122]).1

set_option maxRecDepth 40000

/-- C2: after `Match(0, 0, "z")` on a fresh `abc` machine the returned
state has `accum = 1` and one live thread with `cap[0] = 1`, so the
claimed origin `cap[0] + accum = 2` exceeds the length `1` of the whole
stream seen so far — the live thread was seeded at stream position `1`.
The downstream effect: feeding `"zabc"` next, `Match` reports
`(0, 4, true)`, a four-byte match span for the three-byte literal `abc`
(the `t.cap[0] - m.accum` rebasing in the `InstMatch` case of `add`
subtracts the current `accum` from a `cap[0]` that was stored relative to
the current buffer, not the untruncated stream). -/
theorem claim_C2_accum_origin :
    machZ.accum = 1 ∧
    ((machZ.q0.dense.toList.filterMap entry.t).map
      (fun t => t.cap.getD 0 0)) = [1] ∧
    (∀ t ∈ machZ.q0.dense.toList.filterMap entry.t,
      1 < t.cap.getD 0 0 + machZ.accum) ∧
    (Machine.Match machZ 0 0 [122,97,98,99]).2 = ((0 : Int), (4 : Int), true) := by
  decide

/-- C3: a counterexample with a regex head: the pair (`abc` as a regex,
literal tail `"t"`) fed the chunks `["z", "zabc"]` labels the second `z`
as part of the head match (the machine mis-rebases the parked thread's
`cap[0]`), while feeding the single chunk `["zzabc"]` labels it
`STATE_NONE` — the labeled-byte streams differ. -/
theorem claim_C3_counterexample :
    labeledOf (feedAll (pairStepRK [116]) (initM machAbc)
        [[122],[122,97,98,99]]).1 ≠
    labeledOf (feedAll (pairStepRK [116]) (initM machAbc)
        [[122,122,97,98,99]]).1 := by
  decide

/-- The shift C6 prescribes, in the spec's words: the minimum `cap[0]`
across all live threads, with no `accum` adjustment (compare
`shiftFold`, the fold the code performs). -/
def shiftFoldSpec (dense : List entry) : Int :=
  dense.foldl
    (fun s e =>
      match e.t with
      | some t => min s (t.cap.getD 0 0)
      | none => s)
    maxIntGo

/-- C6: a counterexample to the claimed formula.  On `machZ` (pattern
`abc`, `accum = 1` after a first `Match(0, 0, "z")` call), the call
`Match(0, 0, "za")` returns `(0, 2, false)` and leaves `accum = 1`: the
code's shift is `min (cap[0] - accum) = 0`.  The claim's shift — the
minimum `cap[0]` across live threads — evaluates to `1`, predicting the
return `(0 + 1, 2 - 1, false)` and `accum = 2`, none of which matches. -/
theorem claim_C6_counterexample :
    (Machine.Match machZ 0 0 [122,97]).2 = ((0 : Int), (2 : Int), false) ∧
    (Machine.Match machZ 0 0 [122,97]).1.accum = 1 ∧
    shiftFoldSpec (Machine.Match machZ 0 0 [122,97]).1.q0.dense.toList = 1 ∧
    (Machine.Match machZ 0 0 [122,97]).2 ≠
      ((0 : Int) + 1, (2 : Int) - (0 + 1), false) ∧
    (Machine.Match machZ 0 0 [122,97]).1.accum ≠ machZ.accum + 1 := by
  decide

/-- The step function of `shiftFold`, named for the lemmas below. -/
def shiftF (accum : Int) (s : Int) (e : entry) : Int :=
  match e.t with
  | some t => min s (t.cap.getD 0 0 - accum)
  | none => s

lemma shiftFold_eq_foldl (dense : List entry) (accum : Int) :
    shiftFold dense accum = dense.foldl (shiftF accum) maxIntGo := rfl

lemma foldl_shiftF_le_init (accum : Int) (l : List entry) :
    ∀ init, l.foldl (shiftF accum) init ≤ init := by
  induction l with
  | nil => intro init; exact le_refl _
  | cons e rest ih =>
    intro init
    simp only [List.foldl_cons]
    have h2 : shiftF accum init e ≤ init := by
      unfold shiftF
      cases e.t with
      | none => exact le_refl _
      | some t => exact min_le_left _ _
    exact le_trans (ih _) h2

lemma foldl_shiftF_le (accum : Int) (l : List entry) :
    ∀ init, ∀ e ∈ l, ∀ t, e.t = some t →
      l.foldl (shiftF accum) init ≤ t.cap.getD 0 0 - accum := by
  induction l with
  | nil => intro _ e he; exact absurd he (List.not_mem_nil e)
  | cons e' rest ih =>
    intro init e he t ht
    simp only [List.foldl_cons]
    rcases List.mem_cons.mp he with h | h
    · subst h
      have hf : shiftF accum init e = min init (t.cap.getD 0 0 - accum) := by
        unfold shiftF; rw [ht]
      exact le_trans (foldl_shiftF_le_init accum rest _)
        (by rw [hf]; exact min_le_right _ _)
    · exact ih _ e h t ht

lemma foldl_shiftF_eq_or (accum : Int) (l : List entry) :
    ∀ init, l.foldl (shiftF accum) init = init ∨
      ∃ e ∈ l, ∃ t, e.t = some t ∧
        l.foldl (shiftF accum) init = t.cap.getD 0 0 - accum := by
  induction l with
  | nil => intro init; exact Or.inl rfl
  | cons e' rest ih =>
    intro init
    simp only [List.foldl_cons]
    rcases ih (shiftF accum init e') with h | ⟨e, he, t, ht, hv⟩
    · rw [h]
      cases hcase : e'.t with
      | none =>
        left; unfold shiftF; rw [hcase]
      | some t =>
        have hf : shiftF accum init e' = min init (t.cap.getD 0 0 - accum) := by
          unfold shiftF; rw [hcase]
        rcases min_cases init (t.cap.getD 0 0 - accum) with ⟨hm, _⟩ | ⟨hm, _⟩
        · left; rw [hf, hm]
        · right
          exact ⟨e', List.mem_cons_self _ _, t, hcase, by rw [hf, hm]⟩
    · right
      exact ⟨e, List.mem_cons_of_mem _ he, t, ht, hv⟩

lemma matchRun_accum (m : Machine) (index offset : Nat) (buf : List Nat) :
    (Machine.matchRun m index offset buf).1.accum = m.accum := by
  unfold Machine.matchRun
  dsimp only
  split_ifs <;> rfl

/-- C6 (amended): when the match phase reports no match and live threads
remain (the shift fold does not stay at its `math.MaxInt` sentinel),
`Machine.Match` returns `(index + s, len(buf) - (index + s), false)` and
adds exactly `s` to `accum`, where `s` is the minimum of
`cap[0] - accum` — not of the bare `cap[0]` — across all live threads:
`s` is a lower bound of `cap[0] - accum` over the live threads and is
attained by one of them. -/
theorem claim_C6_shift_accum (m : Machine) (index offset : Nat)
    (buf : List Nat)
    (hok : (Machine.matchRun m index offset buf).2.2.2 = false)
    (hlive : shiftFold (Machine.matchRun m index offset buf).1.q0.dense.toList
        m.accum ≠ maxIntGo) :
    (Machine.Match m index offset buf).2 =
      ((index : Int) +
        shiftFold (Machine.matchRun m index offset buf).1.q0.dense.toList
          m.accum,
       (buf.length : Int) -
        ((index : Int) +
          shiftFold (Machine.matchRun m index offset buf).1.q0.dense.toList
            m.accum),
       false) ∧
    (Machine.Match m index offset buf).1.accum =
      m.accum +
        shiftFold (Machine.matchRun m index offset buf).1.q0.dense.toList
          m.accum ∧
    (∀ e ∈ (Machine.matchRun m index offset buf).1.q0.dense.toList,
      ∀ t, e.t = some t →
        shiftFold (Machine.matchRun m index offset buf).1.q0.dense.toList
            m.accum ≤
          t.cap.getD 0 0 - m.accum) ∧
    (∃ e ∈ (Machine.matchRun m index offset buf).1.q0.dense.toList,
      ∃ t, e.t = some t ∧
        shiftFold (Machine.matchRun m index offset buf).1.q0.dense.toList
            m.accum =
          t.cap.getD 0 0 - m.accum) := by
  have ha := matchRun_accum m index offset buf
  have hmain :
      (Machine.Match m index offset buf).2 =
        ((index : Int) +
          shiftFold (Machine.matchRun m index offset buf).1.q0.dense.toList
            m.accum,
         (buf.length : Int) -
          ((index : Int) +
            shiftFold (Machine.matchRun m index offset buf).1.q0.dense.toList
              m.accum),
         false) ∧
      (Machine.Match m index offset buf).1.accum =
        m.accum +
          shiftFold (Machine.matchRun m index offset buf).1.q0.dense.toList
            m.accum := by
    unfold Machine.Match
    dsimp only
    rw [ha, hok]
    simp only [Bool.false_eq_true, not_false_eq_true, if_true, if_neg hlive]
    refine ⟨?_, ?_⟩ <;> first | rfl | trivial
  refine ⟨hmain.1, hmain.2, ?_, ?_⟩
  · intro e he t ht
    rw [shiftFold_eq_foldl]
    exact foldl_shiftF_le m.accum _ maxIntGo e he t ht
  · rcases foldl_shiftF_eq_or m.accum
        (Machine.matchRun m index offset buf).1.q0.dense.toList maxIntGo with
      h | h
    · exact absurd ((shiftFold_eq_foldl _ _).trans h) hlive
    · rw [shiftFold_eq_foldl]
      exact h

theorem claim_C6_shift_accum_witness :
    ((Machine.matchRun machZ 0 0 [122,97]).2.2.2 = false ∧
      shiftFold (Machine.matchRun machZ 0 0 [122,97]).1.q0.dense.toList
        machZ.accum ≠ maxIntGo) ∧
    ((Machine.Match machZ 0 0 [122,97]).2 =
      (((0 : Nat) : Int) +
        shiftFold (Machine.matchRun machZ 0 0 [122,97]).1.q0.dense.toList
          machZ.accum,
       (([122,97] : List Nat).length : Int) -
        (((0 : Nat) : Int) +
          shiftFold (Machine.matchRun machZ 0 0 [122,97]).1.q0.dense.toList
            machZ.accum),
       false) ∧
    (Machine.Match machZ 0 0 [122,97]).1.accum =
      machZ.accum +
        shiftFold (Machine.matchRun machZ 0 0 [122,97]).1.q0.dense.toList
          machZ.accum ∧
    (∀ e ∈ (Machine.matchRun machZ 0 0 [122,97]).1.q0.dense.toList,
      ∀ t, e.t = some t →
        shiftFold (Machine.matchRun machZ 0 0 [122,97]).1.q0.dense.toList
            machZ.accum ≤
          t.cap.getD 0 0 - machZ.accum) ∧
    (∃ e ∈ (Machine.matchRun machZ 0 0 [122,97]).1.q0.dense.toList,
      ∃ t, e.t = some t ∧
        shiftFold (Machine.matchRun machZ 0 0 [122,97]).1.q0.dense.toList
            machZ.accum =
          t.cap.getD 0 0 - machZ.accum)) :=
  ⟨⟨by decide, by decide⟩,
    claim_C6_shift_accum machZ 0 0 [122,97] (by decide) (by decide)⟩

/-- The queue half of `Machine.clear` (`legex_machine.go` 251-258): free
every live thread of `q` into the given pool and truncate `q.dense`. -/
def clearQueue (pool : List thread) (q : queue) : List thread × queue :=
  (pool ++ q.dense.toList.filterMap entry.t, ⟨q.sparse, #[]⟩)

/-- The compiled `Regexp` fields read by `Get`/`Put` (`legex.go`,
`regexp.go` 25-34): program, leftmost-longest flag, start condition, and
the `matchcap` size `max(prog.NumCap, 2)`. -/
structure Regexp where
  prog : Prog
  longest : Bool
  cond : Nat
  matchcap : Nat
deriving Repr, DecidableEq

/-- The Perl-mode `Regexp` for the pattern `abc`. -/
def reAbc : Regexp := ⟨progAbc, false, 0, 2⟩

/-- `new(Machine)`: the zero value of every field. -/
def zeroMachine : Machine :=
  { p := ⟨[], 0, 0⟩, reLongest := false, reCond := 0, rePrefix := [],
    q0 := ⟨#[], #[]⟩, q1 := ⟨#[], #[]⟩, pool := [], matched := false,
    matchcap := [], accum := 0, panicked := false }

/-- `Regexp.Get` (`legex.go` 4-37) over a `sync.Pool` modelled as a list:
take a pooled machine or a zero `new(Machine)`, point it at `re`, reset
`accum` and `matched`, give `matchcap` (and pooled thread caps) length
`NumCap` with zero backing when the old capacity was short, and allocate
`matchSize[mpool] = 128`-slot queues when the current ones are smaller.
Setting `m.re` covers the `reLongest`/`reCond`/`rePrefix` projections of
the model (onepass is disabled, so `prefix` is empty). -/
def Regexp.Get (re : Regexp) (shared : List Machine) :
    List Machine × Machine :=
  let pick : List Machine × Machine :=
    match shared with
    | [] => ([], zeroMachine)
    | m :: rest => (rest, m)
  let m1 : Machine := { pick.2 with
    reLongest := re.longest, reCond := re.cond, rePrefix := [],
    accum := 0, matched := false, p := re.prog }
  let m2 : Machine :=
    if m1.matchcap.length < re.matchcap then
      { m1 with
        matchcap := List.replicate re.matchcap 0,
        pool := m1.pool.map fun t =>
          { t with cap := List.replicate re.matchcap 0 } }
    else m1
  let m3 : Machine := { m2 with
    matchcap := m2.matchcap.take re.prog.NumCap,
    pool := m2.pool.map fun t => { t with cap := t.cap.take re.prog.NumCap } }
  let m4 : Machine :=
    if m3.q0.sparse.size < 128 then
      { m3 with
        q0 := ⟨Array.mkArray 128 0, #[]⟩,
        q1 := ⟨Array.mkArray 128 0, #[]⟩ }
    else m3
  (pick.1, m4)

/-- `Regexp.Put` (`legex.go` 39-44): clear both queues into the machine's
free list and hand the machine to the shared pool (`re` and `p` are also
dropped there; the model keeps `p`, which the next `Get` overwrites). -/
def Regexp.Put (shared : List Machine) (m : Machine) : List Machine :=
  let c0 := clearQueue m.pool m.q0
  let c1 := clearQueue c0.1 m.q1
  { m with pool := c1.1, q0 := c0.2, q1 := c1.2 } :: shared

/-- The `clearFunc` closure built by `newRegexPattern` (`los.go` 463-467):
`func() { re.Put(re.Get()) }` — it gets a machine from the shared pool and
puts that same machine back; the machine held by the `regexPattern` is not
involved. -/
def regexClearFunc (re : Regexp) (shared : List Machine) : List Machine :=
  let g := Regexp.Get re shared
  Regexp.Put g.1 g.2

/-- `kmpPattern.Clear` (`los.go` 443): an empty body. -/
def kmpPattern.Clear (pat : kmpPattern) : kmpPattern := pat

/-- `matcher.Close` (`los.go` 368-376): run `Clear` on both sub-matchers
(as updates of the sub-matcher state), then report `ErrBufferNotDrained`
(the `true` flag) exactly when bytes remain in the buffer. -/
def closeM (clear0 clear1 : σ → σ) (s : MState σ) : MState σ × Bool :=
  ({ s with pats := clear1 (clear0 s.pats) },
    decide (0 < s.buffer.length))

/-- The sub-matcher state of a pair with a regex head and a KMP tail for
`Close`: the held machine and the shared per-program pool; the head's
`Clear` runs `regexClearFunc` against the pool, the tail's is the
identity. -/
def regexHeadClear (re : Regexp) (p : Machine × List Machine) :
    Machine × List Machine :=
  (p.1, regexClearFunc re p.2)

/-- C8: `Close()` reports `ErrBufferNotDrained` exactly when the internal
buffer is non-empty at the time of the call — for any sub-matcher pair and
any `Clear` behaviour — and after a `Drain()` the buffer is empty, so
`Close()` reports no error. -/
theorem claim_C8_close_error (σ : Type) (clear0 clear1 : σ → σ)
    (s : MState σ) :
    ((closeM clear0 clear1 s).2 = true ↔ s.buffer ≠ []) ∧
    (closeM clear0 clear1 (drainM s).2).2 = false := by
  constructor
  · simp only [closeM, decide_eq_true_eq]
    exact ⟨fun h => List.length_pos.mp h, fun h => List.length_pos.mpr h⟩
  · simp [closeM, drainM]

/-- C9: the `Close()` path does not return the held machine to the pool.
`kmpPattern.Clear` is the identity, as claimed; but the regex side's
`clearFunc` is `func() { re.Put(re.Get()) }`: against an empty shared
pool it creates a brand-new machine and puts that one, so the pool ends
with exactly one machine and the machine actually held by the
`regexPattern` (here `machZ`, distinguishable by its `accum = 1` and its
parked thread) is not in it — it leaks instead of being restored, in
spite of the `Matcher.Close` doc comment. -/
theorem claim_C9_clear_leaks :
    kmpPattern.Clear (newKmpPattern [116]) = newKmpPattern [116] ∧
    (regexClearFunc reAbc []).length = 1 ∧
    machZ ∉ regexClearFunc reAbc [] := by
  decide

/-- C10: `Close()` with a non-empty buffer reports the error, yet the
`Clear` side effects have already happened: with a regex head over an
empty shared pool, the pool observed after the failed `Close()` differs
from the pool before it (the `Get`-then-`Put` interaction ran on the
error path). -/
theorem claim_C10_close_not_atomic (re : Regexp)
    (s : MState (Machine × List Machine))
    (hbuf : s.buffer ≠ []) (hpool : s.pats.2 = []) :
    (closeM (regexHeadClear re) id s).2 = true ∧
    (closeM (regexHeadClear re) id s).1.pats.2 ≠ s.pats.2 := by
  constructor
  · simp only [closeM, decide_eq_true_eq]
    exact List.length_pos.mpr hbuf
  · simp only [closeM, regexHeadClear, id_eq, hpool]
    simp [regexClearFunc, Regexp.Get, Regexp.Put]

theorem claim_C10_close_not_atomic_witness :
    ((⟨0, 0, 0, [1], (machZ, [])⟩ :
        MState (Machine × List Machine)).buffer ≠ [] ∧
      (⟨0, 0, 0, [1], (machZ, [])⟩ :
        MState (Machine × List Machine)).pats.2 = []) ∧
    ((closeM (regexHeadClear reAbc) id
        (⟨0, 0, 0, [1], (machZ, [])⟩ :
          MState (Machine × List Machine))).2 = true ∧
      (closeM (regexHeadClear reAbc) id
        (⟨0, 0, 0, [1], (machZ, [])⟩ :
          MState (Machine × List Machine))).1.pats.2 ≠
        (⟨0, 0, 0, [1], (machZ, [])⟩ :
          MState (Machine × List Machine)).pats.2) :=
  ⟨⟨by decide, rfl⟩,
    claim_C10_close_not_atomic reAbc ⟨0, 0, 0, [1], (machZ, [])⟩
      (by decide) rfl⟩
